import Mathlib

/-!
Verification of the fuxi-cli orchestration core: shallow embedding of the
Router's rule scoring, the Handoff Manager's chain checks, the Workflow
Executor's parallel-group policy, the tool-call response submission logic,
and the todo dependency scheduler (Kahn's algorithm and batch execution),
with theorems settling the specification claims against them.
-/

namespace FuxiCli

/-! ## Handoff Manager (src/docs/technical-sharing.md §7.2) -/

def MAX_HANDOFF_DEPTH : Nat := 5

def detectCircularHandoff (chain : List String) (tgt : String) : Bool :=
  chain.contains tgt

def validateHandoffDepth (depth : Nat) : Bool :=
  depth ≤ MAX_HANDOFF_DEPTH

inductive HandoffReason where
  | CircularHandoff
  | DepthExceeded
  | UnknownAgent
deriving DecidableEq, Repr

inductive HandoffResult where
  | Accepted (newChain : List String) (newDepth : Nat)
  | Rejected (reason : HandoffReason)
deriving DecidableEq, Repr

/-- Modelled from the spec: the `requestHandoff` entry point itself is not among
the provided sources (only `detectCircularHandoff`, `validateHandoffDepth` and
`MAX_HANDOFF_DEPTH` are, in docs/technical-sharing.md); the spec (§4.2) lists the
checks in order — cycle check (reject `CircularHandoff` if `to` already appears
in `chain`), depth check (reject `DepthExceeded` if `depth + 1 > 5`), existence
check (reject `UnknownAgent`) — and on acceptance appends `to` to `chain` and
increments `depth`. -/
def requestHandoff (chain : List String) (depth : Nat) (tgt : String)
    (targetExists : Bool) : HandoffResult :=
  if detectCircularHandoff chain tgt then .Rejected .CircularHandoff
  else if ¬ validateHandoffDepth (depth + 1) then .Rejected .DepthExceeded
  else if ¬ targetExists then .Rejected .UnknownAgent
  else .Accepted (chain ++ [tgt]) (depth + 1)

/-- A chain built solely by sequential handoffs: each request is attempted in
turn against the current chain and depth; accepted transfers update the state,
rejected ones leave it unchanged. -/
def runHandoffs (init : List String × Nat) (reqs : List (String × Bool)) :
    List String × Nat :=
  reqs.foldl
    (fun st r =>
      match requestHandoff st.1 st.2 r.1 r.2 with
      | .Accepted c d => (c, d)
      | .Rejected _ => st)
    init

/-! ## Router rule scoring (src/docs/technical-sharing.md §7.1) -/

structure Triggers where
  keywords : List String
  patterns : List String
  priority : Option ℚ

structure RuleScore where
  score : ℚ
  confidence : ℤ
  matched : List String

/-- JavaScript `Math.round`: round half away from zero toward positive
infinity, i.e. `⌊x + 1/2⌋`. -/
def jsRound (q : ℚ) : ℤ := ⌊q + 1 / 2⌋

/-- Embedding of `ruleScore` from docs/technical-sharing.md §7.1. Keyword
matching is JavaScript `String.includes` (substring containment); regular
expression testing is an external engine, passed in as `regexTest`. -/
def ruleScore (regexTest : String → String → Bool) (input : String)
    (t : Triggers) : RuleScore :=
  let kwMatches := t.keywords.filter (fun k => decide (k.toList <:+: input.toList))
  let reMatches := t.patterns.filter (fun p => regexTest p input)
  let base : ℚ := kwMatches.length * 10 + reMatches.length * 15
  let priority : ℚ := (t.priority.getD 50) / 100
  let score : ℚ := base * (1 + priority * (1 / 2))
  { score := score
    confidence := min 100 (jsRound score)
    matched := kwMatches ++ reMatches }

/-! ## Workflow parallel groups (src/docs/technical-sharing.md §7.4) -/

structure ErrorHandling where
  on_error : Option String
  min_success : Option Nat
deriving DecidableEq, Repr

structure ParallelStepGroup where
  parallel : List String
  error_handling : Option ErrorHandling
deriving DecidableEq, Repr

inductive StepStatus where
  | success
  | error
  | skipped
deriving DecidableEq, Repr

structure StepResult where
  stepId : String
  status : StepStatus
  output : String
deriving DecidableEq, Repr

/-- Modelled from the spec: the `aggregate` helper called by `runParallel` is
not among the provided sources; per the spec (§4.3), successful sub-steps yield
their output with `status = success`, and failed sub-steps yield
`status = error` and `output = ""`. A member outcome of `some out` means the
promise was fulfilled with output `out`; `none` means it was rejected. -/
def aggregate (stepIds : List String) (outcomes : List (Option String)) :
    List StepResult :=
  (stepIds.zip outcomes).map
    (fun p =>
      match p.2 with
      | some out => { stepId := p.1, status := .success, output := out }
      | none => { stepId := p.1, status := .error, output := "" })

/-- Embedding of `runParallel` from docs/technical-sharing.md §7.4: all members
settle, fulfilled ones are counted, `minSuccess` defaults to the group size,
and the group throws (here: `Except.error`) exactly when
`success < minSuccess` and the error policy is not `continue`. -/
def runParallel (g : ParallelStepGroup) (outcomes : List (Option String)) :
    Except String (List StepResult) :=
  let success := (outcomes.filter (fun o => o.isSome)).length
  let minSuccess := (g.error_handling.bind (fun e => e.min_success)).getD
    g.parallel.length
  if success < minSuccess ∧
      (g.error_handling.bind (fun e => e.on_error)) ≠ some "continue" then
    .error "Parallel group failed"
  else
    .ok (aggregate g.parallel outcomes)

/-! ## Tool-call lifecycle (src/unnamed/part_000, useGeminiStream) -/

inductive TCStatus where
  | validating
  | scheduled
  | awaiting_approval
  | executing
  | success
  | error
  | cancelled
deriving DecidableEq, Repr

def TCStatus.isTerminal : TCStatus → Bool
  | .success => true
  | .error => true
  | .cancelled => true
  | _ => false

/-- A tracked tool call as seen by `useGeminiStream`: request identity, whether
the call was client-initiated, its lifecycle status, whether a response payload
(`response.responseParts`) is present, and the payload itself (abstracted to a
list of opaque part tokens). -/
structure TrackedToolCall where
  callId : String
  name : String
  isClientInitiated : Bool
  status : TCStatus
  hasResponseParts : Bool
  responseParts : List String
deriving DecidableEq, Repr

/-- `EDIT_TOOL_NAMES = new Set(['replace', WRITE_FILE_TOOL_NAME])` from
src/unnamed/part_000; `WRITE_FILE_TOOL_NAME` is the core's `write_file` tool
identifier. -/
def EDIT_TOOL_NAMES : List String := ["replace", "write_file"]

inductive ApprovalModeT where
  | default
  | auto_edit
  | yolo
deriving DecidableEq, Repr

/-- Embedding of `handleApprovalModeChange` from src/unnamed/part_000
(lines 1703-1740): when switching to YOLO or AUTO_EDIT, the calls currently in
`awaiting_approval` are collected, AUTO_EDIT further restricts them to the edit
tools, and each collected call is confirmed (`ProceedOnce`), which releases it
to `executing`. Returns the updated call list. -/
def handleApprovalModeChange (newApprovalMode : ApprovalModeT)
    (toolCalls : List TrackedToolCall) : List TrackedToolCall :=
  if newApprovalMode = .yolo ∨ newApprovalMode = .auto_edit then
    toolCalls.map
      (fun c =>
        if c.status = .awaiting_approval ∧
            (newApprovalMode = .yolo ∨ c.name ∈ EDIT_TOOL_NAMES) then
          { c with status := .executing }
        else c)
  else toolCalls

/-- The observable effects of one `handleCompletedTools` invocation: the
aggregated response submissions sent to the Model Service (each one the
concatenated response parts of the batch), the call ids flagged
`responseSubmitted` (`markToolsAsSubmitted`), and the function responses
appended directly to the chat history instead of being submitted. -/
structure CompletionEffects where
  submissions : List (List String)
  markedSubmitted : List String
  historyAdds : List (List String)
deriving DecidableEq, Repr

/-- Embedding of `handleCompletedTools` from src/unnamed/part_000
(lines 1742-1862): bail out while responding; keep the terminal calls that have
response parts; finalize client-initiated calls without submission; if no
model-initiated call remains, stop; if every model-initiated call was
cancelled, append the combined function responses to the chat history and mark
the calls submitted without submitting; otherwise mark the calls submitted and
make one aggregated submission — unless the model was switched due to a quota
error, in which case nothing is submitted. -/
def handleCompletedTools (isResponding : Bool)
    (modelSwitchedFromQuotaError : Bool)
    (completedToolCalls : List TrackedToolCall) : CompletionEffects :=
  if isResponding then
    { submissions := [], markedSubmitted := [], historyAdds := [] }
  else
    let ready := completedToolCalls.filter
      (fun tc => tc.status.isTerminal && tc.hasResponseParts)
    let clientTools := ready.filter (fun t => t.isClientInitiated)
    let clientMarked := clientTools.map (fun t => t.callId)
    let geminiTools := ready.filter (fun t => !t.isClientInitiated)
    if geminiTools.isEmpty then
      { submissions := [], markedSubmitted := clientMarked, historyAdds := [] }
    else
      let allToolsCancelled := geminiTools.all (fun tc =>
        tc.status = .cancelled)
      if allToolsCancelled then
        { submissions := []
          markedSubmitted := clientMarked ++ geminiTools.map (fun t => t.callId)
          historyAdds := [geminiTools.flatMap (fun t => t.responseParts)] }
      else
        { submissions :=
            if modelSwitchedFromQuotaError then []
            else [geminiTools.flatMap (fun t => t.responseParts)]
          markedSubmitted := clientMarked ++ geminiTools.map (fun t => t.callId)
          historyAdds := [] }

/-- Modelled from the spec: the scheduler that forms response batches
(useReactToolScheduler) is not among the provided sources; per the spec (§4.4),
calls already flagged `responseSubmitted` are excluded from future response
batches, i.e. a future batch is drawn only from the tracked calls whose
`responseSubmitted` flag is false. `submitted` is the set of call ids flagged
so far. -/
def nextResponseBatch (submitted : List String)
    (tracked : List TrackedToolCall) : List TrackedToolCall :=
  tracked.filter (fun tc => !(submitted.contains tc.callId))

/-! ## Todo batch execution (src/unnamed/part_000, useGeminiStream) -/

inductive TodoStatus where
  | pending
  | in_progress
  | completed
  | cancelled
deriving DecidableEq, Repr

structure Todo where
  id : String
  description : String
  dependencies : List String
  status : TodoStatus
deriving DecidableEq, Repr

/-- The batch `ExecutionQueue` prop of `useGeminiStream`. -/
structure ExecutionQueue where
  active : Bool
  autoEdit : Bool
  currentIndex : Nat
  totalCount : Nat
  executingTodoId : Option String
deriving DecidableEq, Repr

/-- `updateTodo(id, { status })`: set the status of the todo(s) with the given
id. -/
def updateTodoStatus (todos : List Todo) (tid : String) (s : TodoStatus) :
    List Todo :=
  todos.map (fun t => if t.id = tid then { t with status := s } else t)

/-- The status of the todo with the given id, if present. -/
def statusOf (todos : List Todo) (tid : String) : Option TodoStatus :=
  (todos.find? (fun t => t.id = tid)).map (fun t => t.status)

/-- A todo is ready when its status is `pending` and each of its dependencies
names a todo whose status is `completed`. -/
def todoReady (todos : List Todo) (t : Todo) : Bool :=
  t.status = TodoStatus.pending &&
    t.dependencies.all (fun d =>
      (todos.find? (fun x => x.id = d)).any (fun x =>
        x.status = TodoStatus.completed))

/-- Modelled from the spec: `getNextExecutableTodo` lives in utils/todoUtils.ts,
which is not among the provided sources (src/unnamed/part_000 only imports it);
per the spec (§4.4), the next ready todo (all dependencies satisfied, status
`pending`) is selected by topological rank, i.e. first in the todo list's
dependency-ordered sequence. -/
def getNextExecutableTodo (todos : List Todo) : Option Todo :=
  todos.find? (fun t => todoReady todos t)

/-- The observable batch-level effects of the user-cancelled / error event
handlers and of the batch-continuation step: the updated queue, the updated
todo list, the reported partial progress (completed count over total), and the
id of the todo dispatched next (if any). -/
structure BatchEffects where
  queue : Option ExecutionQueue
  todos : List Todo
  reportedProgress : Option (Nat × Nat)
  dispatched : Option String
deriving DecidableEq, Repr

/-- Embedding of the batch-execution part of `handleUserCancelledEvent` from
src/unnamed/part_000 (lines 1090-1149): if the turn was already flagged
cancelled nothing happens; otherwise, when a batch queue is active, the
interruption is reported with `currentIndex - 1` of `totalCount` todos
completed and the queue is cleared. The todo list is not touched. -/
def handleUserCancelledEventBatch (turnCancelled : Bool)
    (queue : Option ExecutionQueue) (todos : List Todo) : BatchEffects :=
  if turnCancelled then
    { queue := queue, todos := todos, reportedProgress := none,
      dispatched := none }
  else
    match queue with
    | some q =>
      if q.active then
        { queue := none, todos := todos,
          reportedProgress := some (q.currentIndex - 1, q.totalCount),
          dispatched := none }
      else
        { queue := queue, todos := todos, reportedProgress := none,
          dispatched := none }
    | none =>
      { queue := queue, todos := todos, reportedProgress := none,
        dispatched := none }

/-- Embedding of the batch-execution part of `handleErrorEvent` from
src/unnamed/part_000 (lines 1151-1207): when a batch queue is active, the
currently executing todo is marked `cancelled`, the failure is reported with
`currentIndex - 1` completed of `totalCount`, and the queue is cleared. -/
def handleErrorEventBatch (queue : Option ExecutionQueue) (todos : List Todo) :
    BatchEffects :=
  match queue with
  | some q =>
    if q.active then
      let todos1 :=
        match q.executingTodoId with
        | some tid => updateTodoStatus todos tid .cancelled
        | none => todos
      { queue := none, todos := todos1,
        reportedProgress := some (q.currentIndex - 1, q.totalCount),
        dispatched := none }
    else
      { queue := queue, todos := todos, reportedProgress := none,
        dispatched := none }
  | none =>
    { queue := queue, todos := todos, reportedProgress := none,
      dispatched := none }

/-- Embedding of `handleNextTodo` from src/unnamed/part_000 (lines 187-283),
the batch-continuation step run from `submitQuery`'s finally block when a turn
completes: the currently executing todo is marked `completed`; the next
executable todo is looked up; if none remains the batch is reported complete
(`currentIndex / totalCount`) and the queue is cleared; otherwise
`currentIndex` is incremented, the queue now points at the selected todo, the
selected todo is marked `in_progress`, and its execution prompt is dispatched
(represented by its id). -/
def handleNextTodo (queue : Option ExecutionQueue) (todos : List Todo) :
    BatchEffects :=
  match queue with
  | none =>
    { queue := none, todos := todos, reportedProgress := none,
      dispatched := none }
  | some q =>
    if q.active then
      let todos1 :=
        match q.executingTodoId with
        | some tid => updateTodoStatus todos tid .completed
        | none => todos
      match getNextExecutableTodo todos1 with
      | none =>
        { queue := none, todos := todos1,
          reportedProgress := some (q.currentIndex, q.totalCount),
          dispatched := none }
      | some nextTodo =>
        { queue := some { q with
            currentIndex := q.currentIndex + 1,
            executingTodoId := some nextTodo.id }
          todos := updateTodoStatus todos1 nextTodo.id .in_progress
          reportedProgress := none
          dispatched := some nextTodo.id }
    else
      { queue := queue, todos := todos, reportedProgress := none,
        dispatched := none }

/-! ## Topological order over the todo dependency graph
(src/docs/technical-sharing.md §7.6, `topoOrder`) -/

abbrev Node := String
abbrev Edge := Node × Node

/-- The initial in-degree of `y`: the number of edges whose target is `y`
(the `indeg` map right after the initialization loop, under the
`indeg.get(y) || 0` reading which treats absent keys as `0`). -/
def countIn (edges : List Edge) (y : Node) : Int :=
  (edges.countP (fun e => e.2 = y) : Int)

/-- The number of edges into `y` whose source lies in `s`. -/
def intoFrom (edges : List Edge) (s : List Node) (y : Node) : Int :=
  (edges.countP (fun e => e.2 = y ∧ e.1 ∈ s) : Int)

/-- One iteration of the inner `for (const [x,y] of edges)` loop of
`topoOrder`: for an edge out of the just-popped node `u`, decrement the
target's in-degree and enqueue the target when the new value is zero. The
state is the current in-degree map together with the nodes pushed so far. -/
def stepEdge (u : Node) (st : (Node → Int) × List Node) (e : Edge) :
    (Node → Int) × List Node :=
  if e.1 = u then
    let v := st.1 e.2 - 1
    (fun z => if z = e.2 then v else st.1 z,
     if v = 0 then st.2 ++ [e.2] else st.2)
  else st

/-- The full inner edge loop for popped node `u`. -/
def processEdges (edges : List Edge) (u : Node) (indeg : Node → Int) :
    (Node → Int) × List Node :=
  edges.foldl (stepEdge u) (indeg, [])

/-- The `while (q.length)` loop of `topoOrder`: pop the queue head, append it
to the order, run the edge loop, append the newly ready nodes to the back of
the queue. The fuel argument only bounds the iteration count; `topoOrder`
passes enough fuel that it is never exhausted. -/
def kahnLoop (edges : List Edge) :
    Nat → (Node → Int) → List Node → List Node → List Node
  | 0, _, _, order => order
  | Nat.succ fuel, indeg, q, order =>
    match q with
    | [] => order
    | u :: rest =>
      let p := processEdges edges u indeg
      kahnLoop edges fuel p.1 (rest ++ p.2) (order ++ [u])

/-- Embedding of `topoOrder` from docs/technical-sharing.md §7.6 (Kahn's
algorithm): initialize in-degrees, seed the queue with the zero in-degree
nodes in declaration order, run the loop, and throw `Cyclic dependency`
(here: `none`) when the produced order misses some nodes. -/
def topoOrder (nodes : List Node) (edges : List Edge) : Option (List Node) :=
  let indeg := countIn edges
  let q := nodes.filter (fun n => indeg n = 0)
  let order := kahnLoop edges (nodes.length + edges.length + 1) indeg q []
  if order.length = nodes.length then some order else none

/-- A well-formed dependency graph over todo ids: distinct nodes, each
dependency edge recorded once (dependencies are a set), and edge endpoints
drawn from the nodes. -/
def WFGraph (nodes : List Node) (edges : List Edge) : Prop :=
  nodes.Nodup ∧ edges.Nodup ∧ ∀ e ∈ edges, e.1 ∈ nodes ∧ e.2 ∈ nodes

/-- The edge relation of the dependency graph. -/
def edgeRel (edges : List Edge) (u v : Node) : Prop := (u, v) ∈ edges

/-- The graph contains a cycle: some node reaches itself through at least one
edge. -/
def hasCycle (edges : List Edge) : Prop :=
  ∃ u, Relation.TransGen (edgeRel edges) u u

/-- `x` occurs strictly before `y` in the list `o`. -/
def before (o : List Node) (x y : Node) : Prop :=
  ∃ i j, i < j ∧ o.get? i = some x ∧ o.get? j = some y

/-- The nodes list is already topologically sorted: every edge goes from an
earlier node to a later one. -/
def topoSorted (nodes : List Node) (edges : List Edge) : Prop :=
  ∀ e ∈ edges, before nodes e.1 e.2

/-- The invariant of the `topoOrder` loop state: popped nodes (`order`) and
queued nodes (`q`) are distinct nodes of the graph; the in-degree map records,
for each node, its initial in-degree minus the edges arriving from already
popped nodes; a node has been popped or queued exactly when its tracked
in-degree is zero; every edge into a popped node comes from an earlier popped
node; and every edge into a queued node comes from a popped node. -/
structure KahnInv (nodes : List Node) (edges : List Edge)
    (indeg : Node → Int) (q order : List Node) : Prop where
  nodup : (order ++ q).Nodup
  indeg_eq : ∀ y, indeg y = countIn edges y - intoFrom edges order y
  mem_iff : ∀ y, y ∈ order ++ q ↔ (y ∈ nodes ∧ indeg y = 0)
  order_edges : ∀ e ∈ edges, e.2 ∈ order → before order e.1 e.2
  q_edges : ∀ e ∈ edges, e.2 ∈ q → e.1 ∈ order

/-! ## Concrete scenarios used by witnesses and counterexamples -/

/-- The spec's batch scenario: `step-1` completed, `step-2` executing,
`step-3` pending behind `step-1`. -/
def midBatchTodos : List Todo :=
  [{ id := "step-1", description := "first", dependencies := [],
     status := .completed },
   { id := "step-2", description := "second", dependencies := ["step-1"],
     status := .in_progress },
   { id := "step-3", description := "third", dependencies := ["step-1"],
     status := .pending }]

/-- The active queue for the mid-batch scenario: executing `step-2`, second of
three todos. -/
def midBatchQueue : ExecutionQueue :=
  { active := true, autoEdit := false, currentIndex := 2, totalCount := 3,
    executingTodoId := some "step-2" }

/-- A fresh batch over the same todo graph: `step-1` executing, the rest
pending. -/
def startBatchTodos : List Todo :=
  [{ id := "step-1", description := "first", dependencies := [],
     status := .in_progress },
   { id := "step-2", description := "second", dependencies := ["step-1"],
     status := .pending },
   { id := "step-3", description := "third", dependencies := ["step-1"],
     status := .pending }]

/-- The active queue for the fresh batch: executing `step-1`, first of three. -/
def startBatchQueue : ExecutionQueue :=
  { active := true, autoEdit := false, currentIndex := 1, totalCount := 3,
    executingTodoId := some "step-1" }

/-- A model-initiated shell tool call waiting for approval. -/
def shellApprovalCall : TrackedToolCall :=
  { callId := "call-shell", name := "run_shell_command",
    isClientInitiated := false, status := .awaiting_approval,
    hasResponseParts := false, responseParts := [] }

/-- A model-initiated edit tool call waiting for approval. -/
def editApprovalCall : TrackedToolCall :=
  { callId := "call-edit", name := "write_file", isClientInitiated := false,
    status := .awaiting_approval, hasResponseParts := false,
    responseParts := [] }

/-- A cancelled model-initiated call whose response payload is ready. -/
def cancelledReadCall : TrackedToolCall :=
  { callId := "call-read", name := "read_file", isClientInitiated := false,
    status := .cancelled, hasResponseParts := true,
    responseParts := ["read-response"] }

/-- A successful client-initiated call whose response payload is ready. -/
def clientSuccessCall : TrackedToolCall :=
  { callId := "call-client", name := "save_memory", isClientInitiated := true,
    status := .success, hasResponseParts := true,
    responseParts := ["memory-response"] }

/-- A successful model-initiated call whose response payload is ready. -/
def successReadCall : TrackedToolCall :=
  { callId := "call-read-ok", name := "read_file", isClientInitiated := false,
    status := .success, hasResponseParts := true,
    responseParts := ["ok-response"] }

/-! ## Helper lemmas on todo status updates and readiness -/

theorem map_id_updateTodoStatus (todos : List Todo) (tid : String)
    (s : TodoStatus) :
    (updateTodoStatus todos tid s).map Todo.id = todos.map Todo.id := by
  induction todos with
  | nil => rfl
  | cons h t ih =>
    by_cases hid : h.id = tid <;>
      simp [updateTodoStatus, hid] <;>
      simpa [updateTodoStatus] using ih

theorem updateTodoStatus_cons (h : Todo) (t : List Todo) (tid : String)
    (s : TodoStatus) :
    updateTodoStatus (h :: t) tid s =
      (if h.id = tid then { h with status := s } else h) ::
        updateTodoStatus t tid s := rfl

theorem statusOf_cons (x : Todo) (l : List Todo) (other : String) :
    statusOf (x :: l) other =
      if x.id = other then some x.status else statusOf l other := by
  by_cases hx : x.id = other
  · rw [if_pos hx]
    unfold statusOf
    rw [List.find?_cons_of_pos _ (by simpa using hx)]
    rfl
  · rw [if_neg hx]
    unfold statusOf
    rw [List.find?_cons_of_neg _ (by simpa using hx)]

theorem statusOf_update_self (todos : List Todo) (tid : String)
    (s : TodoStatus) (hmem : ∃ t ∈ todos, t.id = tid) :
    statusOf (updateTodoStatus todos tid s) tid = some s := by
  induction todos with
  | nil => simp at hmem
  | cons h t ih =>
    rw [updateTodoStatus_cons]
    by_cases hid : h.id = tid
    · rw [if_pos hid, statusOf_cons, if_pos (by simpa using hid)]
    · rw [if_neg hid, statusOf_cons, if_neg hid]
      have hmem' : ∃ x ∈ t, x.id = tid := by
        rcases hmem with ⟨x, hx, hxid⟩
        rcases List.mem_cons.mp hx with rfl | hxt
        · exact absurd hxid hid
        · exact ⟨x, hxt, hxid⟩
      exact ih hmem'

theorem statusOf_update_other (todos : List Todo) (tid other : String)
    (s : TodoStatus) (hne : other ≠ tid) :
    statusOf (updateTodoStatus todos tid s) other = statusOf todos other := by
  induction todos with
  | nil => rfl
  | cons h t ih =>
    rw [updateTodoStatus_cons, statusOf_cons, statusOf_cons]
    by_cases hid : h.id = tid
    · have hno : h.id ≠ other := by
        rw [hid]; exact fun hh => hne hh.symm
      rw [if_pos hid]
      rw [if_neg (by simpa using hno), if_neg hno]
      exact ih
    · rw [if_neg hid]
      by_cases hother : h.id = other
      · rw [if_pos hother, if_pos hother]
      · rw [if_neg hother, if_neg hother]
        exact ih

theorem statusOf_mem_nodup (todos : List Todo)
    (hnd : (todos.map Todo.id).Nodup) {t : Todo} (ht : t ∈ todos) :
    statusOf todos t.id = some t.status := by
  induction todos with
  | nil => simp at ht
  | cons h tl ih =>
    rw [statusOf_cons]
    rcases List.mem_cons.mp ht with rfl | htl
    · rw [if_pos rfl]
    · have hne : h.id ≠ t.id := by
        intro hh
        have : t.id ∈ tl.map Todo.id := List.mem_map_of_mem Todo.id htl
        rw [← hh] at this
        exact (List.nodup_cons.mp (by simpa using hnd)).1 this
      rw [if_neg hne]
      exact ih (List.nodup_cons.mp (by simpa using hnd)).2 htl

theorem todoReady_iff (todos : List Todo) (t : Todo) :
    todoReady todos t = true ↔
      t.status = TodoStatus.pending ∧
        ∀ d ∈ t.dependencies, statusOf todos d = some TodoStatus.completed := by
  simp only [todoReady, Bool.and_eq_true, decide_eq_true_eq, List.all_eq_true]
  constructor
  · rintro ⟨hp, hall⟩
    refine ⟨hp, fun d hd => ?_⟩
    have := hall d hd
    rcases hfind : todos.find? (fun x => x.id = d) with _ | x
    · simp [hfind] at this
    · simp only [hfind, Option.any_some, decide_eq_true_eq] at this
      simp [statusOf, hfind, this]
  · rintro ⟨hp, hall⟩
    refine ⟨hp, fun d hd => ?_⟩
    have := hall d hd
    rcases hfind : todos.find? (fun x => x.id = d) with _ | x
    · simp [statusOf, hfind] at this
    · simp only [statusOf, hfind, Option.map_some] at this
      simp [hfind, Option.any_some, Option.some.injEq] at this ⊢
      exact this

theorem getNextExecutableTodo_mem {todos : List Todo} {nt : Todo}
    (h : getNextExecutableTodo todos = some nt) :
    nt ∈ todos ∧ todoReady todos nt = true :=
  ⟨List.mem_of_find?_eq_some h, List.find?_some h⟩

theorem getNextExecutableTodo_none {todos : List Todo}
    (h : getNextExecutableTodo todos = none) :
    ∀ t ∈ todos, todoReady todos t = false := by
  intro t ht
  have := List.find?_eq_none.mp h t ht
  simpa using this

/-! ## Counting lemmas for the dependency graph -/

theorem ite_true_one : (if (true = true) then (1 : Nat) else 0) = 1 := rfl

theorem ite_false_zero : (if (false = true) then (1 : Nat) else 0) = 0 := rfl

theorem countP_into_le (edges : List Edge) (s : List Node) (y : Node) :
    edges.countP (fun e => e.2 = y ∧ e.1 ∈ s) ≤
      edges.countP (fun e => e.2 = y) := by
  refine List.countP_mono_left ?_
  intro e _ h
  simp only [decide_eq_true_eq] at h ⊢
  exact h.1

theorem countP_into_eq_iff (edges : List Edge) (s : List Node) (y : Node) :
    edges.countP (fun e => e.2 = y ∧ e.1 ∈ s) =
        edges.countP (fun e => e.2 = y) ↔
      ∀ e ∈ edges, e.2 = y → e.1 ∈ s := by
  induction edges with
  | nil => simp
  | cons e l ih =>
    rw [List.countP_cons, List.countP_cons]
    by_cases hy : e.2 = y
    · by_cases hs : e.1 ∈ s
      · have h1 : (decide (e.2 = y ∧ e.1 ∈ s)) = true := by
          rw [decide_eq_true_eq]; exact ⟨hy, hs⟩
        have h2 : (decide (e.2 = y)) = true := by
          rw [decide_eq_true_eq]; exact hy
        rw [h1, h2, ite_true_one]
        constructor
        · intro h
          have hl := ih.mp (by omega)
          intro e' he' hy'
          rcases List.mem_cons.mp he' with rfl | he'
          · exact hs
          · exact hl e' he' hy'
        · intro h
          have := ih.mpr
            (fun e' he' hy' => h e' (List.mem_cons_of_mem _ he') hy')
          omega
      · have hle := countP_into_le l s y
        have h1 : (decide (e.2 = y ∧ e.1 ∈ s)) = false := by
          rw [decide_eq_false_iff_not]; exact fun hh => hs hh.2
        have h2 : (decide (e.2 = y)) = true := by
          rw [decide_eq_true_eq]; exact hy
        rw [h1, h2, ite_false_zero, ite_true_one]
        constructor
        · intro h; omega
        · intro h
          exact absurd (h e (List.mem_cons_self e l) hy) hs
    · have h1 : (decide (e.2 = y ∧ e.1 ∈ s)) = false := by
        rw [decide_eq_false_iff_not]; exact fun hh => hy hh.1
      have h2 : (decide (e.2 = y)) = false := by
        rw [decide_eq_false_iff_not]; exact hy
      rw [h1, h2, ite_false_zero, Nat.add_zero, Nat.add_zero, ih]
      constructor
      · intro h e' he' hy'
        rcases List.mem_cons.mp he' with rfl | he'
        · exact absurd hy' hy
        · exact h e' he' hy'
      · intro h e' he' hy'
        exact h e' (List.mem_cons_of_mem _ he') hy'

theorem countP_into_append_singleton (edges : List Edge) (s : List Node)
    (u y : Node) (hu : u ∉ s) :
    edges.countP (fun e => e.2 = y ∧ e.1 ∈ s ++ [u]) =
      edges.countP (fun e => e.2 = y ∧ e.1 ∈ s) +
        edges.countP (fun e => e = (u, y)) := by
  induction edges with
  | nil => simp
  | cons e l ih =>
    rw [List.countP_cons, List.countP_cons, List.countP_cons]
    by_cases he : e = (u, y)
    · subst he
      have h1 : (decide ((u, y).2 = y ∧ (u, y).1 ∈ s ++ [u])) = true := by
        rw [decide_eq_true_eq]
        exact ⟨rfl, List.mem_append_right _ (List.mem_singleton.mpr rfl)⟩
      have h2 : (decide ((u, y).2 = y ∧ (u, y).1 ∈ s)) = false := by
        rw [decide_eq_false_iff_not]
        exact fun hh => hu hh.2
      have h3 : (decide ((u, y) = (u, y))) = true := by
        rw [decide_eq_true_eq]
      rw [h1, h2, h3, ite_true_one, ite_false_zero]
      omega
    · have heq : (decide (e.2 = y ∧ e.1 ∈ s ++ [u])) =
          (decide (e.2 = y ∧ e.1 ∈ s)) := by
        by_cases h2 : e.2 = y
        · by_cases h1 : e.1 ∈ s
          · have ha : (decide (e.2 = y ∧ e.1 ∈ s ++ [u])) = true := by
              rw [decide_eq_true_eq]
              exact ⟨h2, List.mem_append_left _ h1⟩
            have hb : (decide (e.2 = y ∧ e.1 ∈ s)) = true := by
              rw [decide_eq_true_eq]; exact ⟨h2, h1⟩
            rw [ha, hb]
          · have ha : (decide (e.2 = y ∧ e.1 ∈ s ++ [u])) = false := by
              rw [decide_eq_false_iff_not]
              rintro ⟨hy2, h1'⟩
              rcases List.mem_append.mp h1' with h | h
              · exact h1 h
              · exact he (Prod.ext (List.mem_singleton.mp h) hy2)
            have hb : (decide (e.2 = y ∧ e.1 ∈ s)) = false := by
              rw [decide_eq_false_iff_not]
              exact fun hh => h1 hh.2
            rw [ha, hb]
        · have ha : (decide (e.2 = y ∧ e.1 ∈ s ++ [u])) = false := by
            rw [decide_eq_false_iff_not]
            exact fun hh => h2 hh.1
          have hb : (decide (e.2 = y ∧ e.1 ∈ s)) = false := by
            rw [decide_eq_false_iff_not]
            exact fun hh => h2 hh.1
          rw [ha, hb]
      have hne : (decide (e = (u, y))) = false := by
        rw [decide_eq_false_iff_not]; exact he
      rw [heq, hne, ite_false_zero]
      omega

theorem intoFrom_le_countIn (edges : List Edge) (s : List Node) (y : Node) :
    intoFrom edges s y ≤ countIn edges y := by
  unfold intoFrom countIn
  exact_mod_cast countP_into_le edges s y

theorem intoFrom_eq_countIn_iff (edges : List Edge) (s : List Node)
    (y : Node) :
    intoFrom edges s y = countIn edges y ↔
      ∀ e ∈ edges, e.2 = y → e.1 ∈ s := by
  unfold intoFrom countIn
  rw [← countP_into_eq_iff edges s y]
  exact_mod_cast Iff.rfl

theorem intoFrom_nil (edges : List Edge) (y : Node) :
    intoFrom edges [] y = 0 := by
  unfold intoFrom
  have : edges.countP (fun e => e.2 = y ∧ e.1 ∈ ([] : List Node)) = 0 := by
    rw [List.countP_eq_zero]
    intro e _
    simp
  rw [this]
  rfl

theorem countP_single_edge (edges : List Edge) (hnd : edges.Nodup)
    (u y : Node) :
    edges.countP (fun e => e = (u, y)) =
      if (u, y) ∈ edges then 1 else 0 := by
  induction edges with
  | nil => simp
  | cons e l ih =>
    have hnd' := List.nodup_cons.mp hnd
    rw [List.countP_cons]
    by_cases he : e = (u, y)
    · subst he
      have hnot : (u, y) ∉ l := hnd'.1
      rw [ih hnd'.2, if_neg hnot, if_pos (List.mem_cons_self _ _)]
      simp
    · have hmem : ((u, y) ∈ e :: l) ↔ ((u, y) ∈ l) := by
        constructor
        · intro h
          rcases List.mem_cons.mp h with h | h
          · exact absurd h.symm he
          · exact h
        · exact List.mem_cons_of_mem e
      rw [ih hnd'.2]
      have hno : (decide (e = (u, y))) = false := by
        rw [decide_eq_false_iff_not]; exact he
      rw [hno, ite_false_zero, Nat.add_zero]
      by_cases hm : (u, y) ∈ l
      · rw [if_pos hm, if_pos (hmem.mpr hm)]
      · rw [if_neg hm, if_neg (fun h => hm (hmem.mp h))]

theorem intoFrom_append_singleton (edges : List Edge) (hnd : edges.Nodup)
    (s : List Node) (u y : Node) (hu : u ∉ s) :
    intoFrom edges (s ++ [u]) y =
      intoFrom edges s y + (if (u, y) ∈ edges then 1 else 0) := by
  unfold intoFrom
  rw [countP_into_append_singleton edges s u y hu, countP_single_edge edges hnd]
  by_cases hm : (u, y) ∈ edges
  · rw [if_pos hm, if_pos hm]
    push_cast
    ring
  · rw [if_neg hm, if_neg hm]
    push_cast
    ring

theorem countIn_pos_of_mem {edges : List Edge} {e : Edge} (he : e ∈ edges) :
    countIn edges e.2 ≠ 0 := by
  unfold countIn
  have hpos : 0 < edges.countP (fun x => x.2 = e.2) :=
    List.countP_pos_iff.mpr ⟨e, he, by simp⟩
  intro hc
  have : edges.countP (fun x => x.2 = e.2) = 0 := by exact_mod_cast hc
  omega

/-! ## The inner edge loop of `topoOrder` -/

theorem stepEdge_skip {u : Node} {st : (Node → Int) × List Node} {e : Edge}
    (h : ¬ e.1 = u) : stepEdge u st e = st := by
  unfold stepEdge
  rw [if_neg h]

theorem stepEdge_hit {u : Node} {st : (Node → Int) × List Node} {e : Edge}
    (h : e.1 = u) :
    stepEdge u st e =
      ((fun z => if z = e.2 then st.1 e.2 - 1 else st.1 z),
        if st.1 e.2 - 1 = 0 then st.2 ++ [e.2] else st.2) := by
  unfold stepEdge
  rw [if_pos h]

theorem foldl_stepEdge_acc (u : Node) (es : List Edge) :
    ∀ (f : Node → Int) (acc : List Node),
      es.foldl (stepEdge u) (f, acc) =
        ((es.foldl (stepEdge u) (f, [])).1,
          acc ++ (es.foldl (stepEdge u) (f, [])).2) := by
  induction es with
  | nil => intro f acc; simp
  | cons e es ih =>
    intro f acc
    rw [List.foldl_cons, List.foldl_cons]
    by_cases h : e.1 = u
    · rw [stepEdge_hit h, stepEdge_hit h]
      by_cases hz : f e.2 - 1 = 0
      · rw [if_pos hz, if_pos hz]
        rw [ih _ (acc ++ [e.2]), ih _ ([] ++ [e.2])]
        simp [List.append_assoc]
      · rw [if_neg hz, if_neg hz]
        exact ih _ _
    · rw [stepEdge_skip h, stepEdge_skip h]
      exact ih f acc

/-! ## Positions in the produced order -/

theorem get?_lt {o : List Node} {i : Nat} {x : Node}
    (h : o.get? i = some x) : i < o.length := by
  by_contra hle
  rw [List.get?_len_le (Nat.le_of_not_lt hle)] at h
  exact absurd h (by simp)

theorem before_mem_left {o : List Node} {x y : Node} (h : before o x y) :
    x ∈ o := by
  rcases h with ⟨i, _, _, hi, _⟩
  exact List.get?_mem hi

theorem before_mem_right {o : List Node} {x y : Node} (h : before o x y) :
    y ∈ o := by
  rcases h with ⟨_, j, _, _, hj⟩
  exact List.get?_mem hj

theorem before_append_right {o : List Node} {x y : Node} (u : Node)
    (h : before o x y) : before (o ++ [u]) x y := by
  rcases h with ⟨i, j, hij, hi, hj⟩
  exact ⟨i, j, hij, by rw [List.get?_append (get?_lt hi)]; exact hi,
    by rw [List.get?_append (get?_lt hj)]; exact hj⟩

theorem before_concat {o : List Node} {x u : Node} (hx : x ∈ o) :
    before (o ++ [u]) x u := by
  rcases List.get?_of_mem hx with ⟨i, hi⟩
  exact ⟨i, o.length, get?_lt hi,
    by rw [List.get?_append (get?_lt hi)]; exact hi,
    List.get?_concat_length o u⟩

theorem before_trans {o : List Node} (hnd : o.Nodup) {x y z : Node}
    (h1 : before o x y) (h2 : before o y z) : before o x z := by
  rcases h1 with ⟨i, j, hij, hi, hj⟩
  rcases h2 with ⟨j2, k, hjk, hj2, hk⟩
  have hjj : j = j2 :=
    List.get?_inj (get?_lt hj) hnd (by rw [hj, hj2])
  exact ⟨i, k, by omega, hi, hk⟩

theorem before_irrefl {o : List Node} (hnd : o.Nodup) (x : Node) :
    ¬ before o x x := by
  rintro ⟨i, j, hij, hi, hj⟩
  have : i = j := List.get?_inj (get?_lt hi) hnd (by rw [hi, hj])
  omega

/-- Full characterization of the inner edge loop for a popped node `u`, for a
duplicate-free edge list: the in-degree of each edge target of `u` drops by
one, and exactly the targets whose in-degree lands on zero are pushed, each
once. -/
theorem processEdges_spec (edges : List Edge) (hnd : edges.Nodup) (u : Node) :
    ∀ f : Node → Int,
      (∀ y, (processEdges edges u f).1 y =
        f y - (if (u, y) ∈ edges then 1 else 0)) ∧
      (∀ y, y ∈ (processEdges edges u f).2 ↔
        ((u, y) ∈ edges ∧ (processEdges edges u f).1 y = 0)) ∧
      (processEdges edges u f).2.Nodup := by
  induction edges with
  | nil =>
    intro f
    refine ⟨fun y => by simp [processEdges], fun y => by simp [processEdges],
      by simp [processEdges]⟩
  | cons e es ih =>
    intro f
    have hnd' := List.nodup_cons.mp hnd
    have ihs := ih hnd'.2
    by_cases h : e.1 = u
    · have hcons : processEdges (e :: es) u f =
          (((processEdges es u
              (fun z => if z = e.2 then f e.2 - 1 else f z)).1),
            (if f e.2 - 1 = 0 then [e.2] else []) ++
              (processEdges es u
                (fun z => if z = e.2 then f e.2 - 1 else f z)).2) := by
        unfold processEdges
        rw [List.foldl_cons, stepEdge_hit h]
        by_cases hz : f e.2 - 1 = 0
        · rw [if_pos hz, if_pos hz]
          exact foldl_stepEdge_acc u es _ ([] ++ [e.2])
        · rw [if_neg hz, if_neg hz]
          rw [List.nil_append]
      have heu : e = (u, e.2) := Prod.ext h rfl
      obtain ⟨ih1, ih2, ih3⟩ :=
        ihs (fun z => if z = e.2 then f e.2 - 1 else f z)
      have hnotes : (u, e.2) ∉ es := by
        rw [← heu]; exact hnd'.1
      have hm : (u, e.2) ∈ e :: es := by
        rw [heu]; exact List.mem_cons_self _ _
      have hval : (processEdges es u
          (fun z => if z = e.2 then f e.2 - 1 else f z)).1 e.2 =
            f e.2 - 1 := by
        rw [ih1 e.2]
        rw [if_pos rfl, if_neg hnotes]
        omega
      have hne_e : ∀ y, y ≠ e.2 → (u, y) ≠ e := by
        intro y hy hh
        rw [heu] at hh
        exact hy (congrArg Prod.snd hh)
      have hmemtr : ∀ y, y ≠ e.2 → (((u, y) ∈ e :: es) ↔ ((u, y) ∈ es)) := by
        intro y hy
        constructor
        · intro hh
          exact (List.mem_cons.mp hh).resolve_left (hne_e y hy)
        · exact List.mem_cons_of_mem e
      refine ⟨?_, ?_, ?_⟩
      · intro y
        rw [hcons]
        by_cases hy : y = e.2
        · subst hy
          rw [hval, if_pos hm]
        · rw [ih1 y]
          rw [if_neg hy]
          by_cases hm2 : (u, y) ∈ es
          · rw [if_pos hm2, if_pos ((hmemtr y hy).mpr hm2)]
          · rw [if_neg hm2, if_neg (fun hh => hm2 ((hmemtr y hy).mp hh))]
      · intro y
        rw [hcons]
        have hS : ∀ z, z ∈ (processEdges es u
            (fun w => if w = e.2 then f e.2 - 1 else f w)).2 ↔
              ((u, z) ∈ es ∧ (processEdges es u
                (fun w => if w = e.2 then f e.2 - 1 else f w)).1 z = 0) := ih2
        by_cases hy : y = e.2
        · subst hy
          have hSnot : e.2 ∉ (processEdges es u
              (fun w => if w = e.2 then f e.2 - 1 else f w)).2 := by
            intro hin
            exact hnotes ((hS e.2).mp hin).1
          by_cases hz : f e.2 - 1 = 0
          · rw [if_pos hz]
            constructor
            · intro _
              exact ⟨hm, by rw [hval]; exact hz⟩
            · intro _
              exact List.mem_append_left _ (List.mem_singleton.mpr rfl)
          · rw [if_neg hz]
            rw [List.nil_append]
            constructor
            · intro hin
              exact absurd hin hSnot
            · rintro ⟨-, hv⟩
              rw [hval] at hv
              exact absurd hv hz
        · have hyacc : y ∉ (if f e.2 - 1 = 0 then [e.2] else []) := by
            by_cases hz : f e.2 - 1 = 0
            · rw [if_pos hz]
              intro hin
              exact hy (List.mem_singleton.mp hin)
            · rw [if_neg hz]
              exact List.not_mem_nil y
          constructor
          · intro hin
            rcases List.mem_append.mp hin with hin | hin
            · exact absurd hin hyacc
            · rcases (hS y).mp hin with ⟨hm2, hv⟩
              exact ⟨(hmemtr y hy).mpr hm2, hv⟩
          · rintro ⟨hm2, hv⟩
            refine List.mem_append_right _ ((hS y).mpr ⟨?_, hv⟩)
            exact (hmemtr y hy).mp hm2
      · rw [hcons]
        have hSnot : e.2 ∉ (processEdges es u
            (fun w => if w = e.2 then f e.2 - 1 else f w)).2 := by
          intro hin
          exact hnotes ((ih2 e.2).mp hin).1
        by_cases hz : f e.2 - 1 = 0
        · rw [if_pos hz]
          rw [List.singleton_append]
          exact List.nodup_cons.mpr ⟨hSnot, ih3⟩
        · rw [if_neg hz]
          rw [List.nil_append]
          exact ih3
    · have hcons : processEdges (e :: es) u f = processEdges es u f := by
        unfold processEdges
        rw [List.foldl_cons, stepEdge_skip h]
      obtain ⟨ih1, ih2, ih3⟩ := ihs f
      have hne_e : ∀ y, (u, y) ≠ e := by
        intro y hh
        exact h (by rw [← hh])
      have hmemtr : ∀ y, (((u, y) ∈ e :: es) ↔ ((u, y) ∈ es)) := by
        intro y
        constructor
        · intro hh
          exact (List.mem_cons.mp hh).resolve_left (hne_e y)
        · exact List.mem_cons_of_mem e
      refine ⟨?_, ?_, ?_⟩
      · intro y
        rw [hcons, ih1 y]
        by_cases hm2 : (u, y) ∈ es
        · rw [if_pos hm2, if_pos ((hmemtr y).mpr hm2)]
        · rw [if_neg hm2, if_neg (fun hh => hm2 ((hmemtr y).mp hh))]
      · intro y
        rw [hcons]
        rw [ih2 y]
        constructor
        · rintro ⟨hm2, hv⟩
          exact ⟨(hmemtr y).mpr hm2, hv⟩
        · rintro ⟨hm2, hv⟩
          exact ⟨(hmemtr y).mp hm2, hv⟩
      · rw [hcons]
        exact ih3

/-! ## The main loop invariant of `topoOrder` -/

theorem kahnInv_step (nodes : List Node) (edges : List Edge)
    (hwf : WFGraph nodes edges) (indeg : Node → Int) (u : Node)
    (rest order : List Node)
    (hinv : KahnInv nodes edges indeg (u :: rest) order) :
    KahnInv nodes edges (processEdges edges u indeg).1
      (rest ++ (processEdges edges u indeg).2) (order ++ [u]) := by
  obtain ⟨P1, P2, P3⟩ := processEdges_spec edges hwf.2.1 u indeg
  have hnd_parts := List.nodup_append.mp hinv.nodup
  have hu_not_order : u ∉ order := by
    intro h
    exact hnd_parts.2.2 h (List.mem_cons_self u rest)
  have factA : ∀ y, y ∈ order ++ u :: rest → (u, y) ∉ edges := by
    intro y hy hedge
    rcases List.mem_append.mp hy with hyo | hyq
    · have hb := hinv.order_edges (u, y) hedge hyo
      exact hu_not_order (before_mem_left hb)
    · exact hu_not_order (hinv.q_edges (u, y) hedge hyq)
  have factB : ∀ y ∈ (processEdges edges u indeg).2,
      y ∉ order ++ u :: rest := by
    intro y hyP hyold
    exact factA y hyold ((P2 y).mp hyP).1
  have hFold : ∀ y, (u, y) ∉ edges →
      (processEdges edges u indeg).1 y = indeg y := by
    intro y hne
    rw [P1 y, if_neg hne]
    omega
  have hindeg : ∀ y, (processEdges edges u indeg).1 y =
      countIn edges y - intoFrom edges (order ++ [u]) y := by
    intro y
    rw [P1 y, hinv.indeg_eq y,
      intoFrom_append_singleton edges hwf.2.1 order u y hu_not_order]
    omega
  have hrearr : (order ++ [u]) ++ (rest ++ (processEdges edges u indeg).2) =
      (order ++ u :: rest) ++ (processEdges edges u indeg).2 := by
    simp
  refine ⟨?_, hindeg, ?_, ?_, ?_⟩
  · rw [hrearr]
    refine List.nodup_append.mpr ⟨hinv.nodup, P3, ?_⟩
    intro a ha haP
    exact factB a haP ha
  · intro y
    have hmem : y ∈ (order ++ [u]) ++ (rest ++ (processEdges edges u indeg).2)
        ↔ (y ∈ order ++ u :: rest ∨ y ∈ (processEdges edges u indeg).2) := by
      rw [hrearr, List.mem_append]
    rw [hmem]
    constructor
    · rintro (hyold | hyP)
      · have hy := (hinv.mem_iff y).mp hyold
        have hne := factA y hyold
        rw [hFold y hne]
        exact hy
      · rcases (P2 y).mp hyP with ⟨hedge, hF0⟩
        exact ⟨(hwf.2.2 (u, y) hedge).2, hF0⟩
    · rintro ⟨hyn, hF0⟩
      by_cases hedge : (u, y) ∈ edges
      · exact Or.inr ((P2 y).mpr ⟨hedge, hF0⟩)
      · refine Or.inl ((hinv.mem_iff y).mpr ⟨hyn, ?_⟩)
        rw [← hFold y hedge]
        exact hF0
  · intro e he hmem
    rcases List.mem_append.mp hmem with hyo | hyu
    · exact before_append_right u (hinv.order_edges e he hyo)
    · have heu : e.2 = u := List.mem_singleton.mp hyu
      have h1 : e.1 ∈ order := by
        apply hinv.q_edges e he
        rw [heu]
        exact List.mem_cons_self u rest
      rw [heu]
      exact before_concat h1
  · intro e he hmem
    rcases List.mem_append.mp hmem with hyr | hyP
    · exact List.mem_append_left _
        (hinv.q_edges e he (List.mem_cons_of_mem u hyr))
    · have hF0 := ((P2 e.2).mp hyP).2
      rw [hindeg e.2] at hF0
      have heq : intoFrom edges (order ++ [u]) e.2 = countIn edges e.2 := by
        omega
      exact (intoFrom_eq_countIn_iff edges (order ++ [u]) e.2).mp heq e he rfl

/-- The initial loop state — all in-degrees fresh, queue seeded with the zero
in-degree nodes in declaration order, nothing popped — satisfies the
invariant. -/
theorem kahnInv_init (nodes : List Node) (edges : List Edge)
    (hwf : WFGraph nodes edges) :
    KahnInv nodes edges (countIn edges)
      (nodes.filter (fun n => countIn edges n = 0)) [] := by
  refine ⟨?_, ?_, ?_, ?_, ?_⟩
  · simpa using hwf.1.filter _
  · intro y
    rw [intoFrom_nil]
    omega
  · intro y
    rw [List.nil_append, List.mem_filter]
    constructor
    · rintro ⟨hyn, hdec⟩
      exact ⟨hyn, by simpa using hdec⟩
    · rintro ⟨hyn, h0⟩
      exact ⟨hyn, by simpa using h0⟩
  · intro e _ hmem
    exact absurd hmem (List.not_mem_nil e.2)
  · intro e he hmem
    rw [List.mem_filter] at hmem
    have h0 : countIn edges e.2 = 0 := by simpa using hmem.2
    exact absurd h0 (countIn_pos_of_mem he)

/-- Running the loop from an invariant state with enough fuel pops everything:
the result extends the current order with the current queue followed only by
nodes that had a positive initial in-degree, and the final state (empty
queue) still satisfies the invariant. -/
theorem kahnLoop_spec (nodes : List Node) (edges : List Edge)
    (hwf : WFGraph nodes edges) :
    ∀ (fuel : Nat) (indeg : Node → Int) (q order : List Node),
      KahnInv nodes edges indeg q order →
      nodes.length < fuel + order.length →
      ∃ (ext : List Node) (indegF : Node → Int),
        kahnLoop edges fuel indeg q order = order ++ q ++ ext ∧
        (∀ y ∈ ext, countIn edges y ≠ 0) ∧
        KahnInv nodes edges indegF []
          (kahnLoop edges fuel indeg q order) := by
  intro fuel
  induction fuel with
  | zero =>
    intro indeg q order hinv hfuel
    have hsub : order ⊆ nodes := fun x hx =>
      ((hinv.mem_iff x).mp (List.mem_append_left _ hx)).1
    have hnd : order.Nodup := (List.nodup_append.mp hinv.nodup).1
    have := (hnd.subperm hsub).length_le
    omega
  | succ fuel ih =>
    intro indeg q order hinv hfuel
    cases q with
    | nil =>
      refine ⟨[], indeg, by simp [kahnLoop], by simp, ?_⟩
      have : kahnLoop edges (fuel + 1) indeg [] order = order := rfl
      rw [this]
      exact hinv
    | cons u rest =>
      have hstep := kahnInv_step nodes edges hwf indeg u rest order hinv
      have harith : nodes.length < fuel + (order ++ [u]).length := by
        rw [List.length_append]
        simp only [List.length_singleton]
        omega
      obtain ⟨ext', indegF, heq, hext, hfin⟩ :=
        ih (processEdges edges u indeg).1
          (rest ++ (processEdges edges u indeg).2) (order ++ [u]) hstep harith
      have hloop : kahnLoop edges (fuel + 1) indeg (u :: rest) order =
          kahnLoop edges fuel (processEdges edges u indeg).1
            (rest ++ (processEdges edges u indeg).2) (order ++ [u]) := rfl
      refine ⟨(processEdges edges u indeg).2 ++ ext', indegF, ?_, ?_, ?_⟩
      · rw [hloop, heq]
        simp [List.append_assoc]
      · intro y hy
        rcases List.mem_append.mp hy with hyP | hyE
        · obtain ⟨P1, P2, P3⟩ := processEdges_spec edges hwf.2.1 u indeg
          have hedge := ((P2 y).mp hyP).1
          exact countIn_pos_of_mem (e := (u, y)) hedge
        · exact hext y hyE
      · rw [hloop]
        exact hfin

/-- In a finite set of nodes in which every node has an incoming edge from
inside the set, there is a cycle. -/
theorem cycle_of_all_pred (edges : List Edge) (R : List Node) (hne : R ≠ [])
    (hpred : ∀ y ∈ R, ∃ x, x ∈ R ∧ (x, y) ∈ edges) : hasCycle edges := by
  classical
  have hstep : ∀ p : {y // y ∈ R}, ∃ p2 : {y // y ∈ R},
      (p2.1, p.1) ∈ edges := by
    rintro ⟨y, hy⟩
    rcases hpred y hy with ⟨x, hxR, hxe⟩
    exact ⟨⟨x, hxR⟩, hxe⟩
  choose f hf using hstep
  obtain ⟨y0, hy0⟩ : ∃ y, y ∈ R := by
    cases R with
    | nil => exact absurd rfl hne
    | cons a l => exact ⟨a, List.mem_cons_self a l⟩
  have hseq : ∀ n : Nat, ((f^[n + 1] ⟨y0, hy0⟩).1,
      (f^[n] (⟨y0, hy0⟩ : {y // y ∈ R})).1) ∈ edges := by
    intro n
    rw [Function.iterate_succ_apply' f n _]
    exact hf _
  have hchain : ∀ d n : Nat, Relation.TransGen (edgeRel edges)
      (f^[n + d + 1] (⟨y0, hy0⟩ : {y // y ∈ R})).1
      (f^[n] (⟨y0, hy0⟩ : {y // y ∈ R})).1 := by
    intro d
    induction d with
    | zero =>
      intro n
      exact Relation.TransGen.single (hseq n)
    | succ d ihd =>
      intro n
      have h1 : Relation.TransGen (edgeRel edges)
          (f^[(n + d + 1) + 1] (⟨y0, hy0⟩ : {y // y ∈ R})).1
          (f^[n + d + 1] (⟨y0, hy0⟩ : {y // y ∈ R})).1 :=
        Relation.TransGen.single (hseq (n + d + 1))
      have h2 := ihd n
      have hidx : n + (d + 1) + 1 = (n + d + 1) + 1 := by omega
      rw [hidx]
      exact Relation.TransGen.trans h1 h2
  have hmaps : ∀ n ∈ Finset.range (R.toFinset.card + 1),
      (f^[n] (⟨y0, hy0⟩ : {y // y ∈ R})).1 ∈ R.toFinset := by
    intro n _
    exact List.mem_toFinset.mpr (f^[n] (⟨y0, hy0⟩ : {y // y ∈ R})).2
  have hcard : R.toFinset.card < (Finset.range (R.toFinset.card + 1)).card :=
    by simp
  obtain ⟨i, hi, j, hj, hij, hfeq⟩ :=
    Finset.exists_ne_map_eq_of_card_lt_of_maps_to hcard hmaps
  rcases Nat.lt_or_ge i j with hlt | hge
  · have hc := hchain (j - i - 1) i
    rw [show i + (j - i - 1) + 1 = j by omega] at hc
    rw [← hfeq] at hc
    exact ⟨_, hc⟩
  · have hlt2 : j < i := by
      rcases Nat.eq_or_lt_of_le hge with heq2 | hlt2
      · exact absurd heq2.symm hij
      · exact hlt2
    have hc := hchain (i - j - 1) j
    rw [show j + (i - j - 1) + 1 = i by omega] at hc
    rw [hfeq] at hc
    exact ⟨_, hc⟩

/-- A successful run of `topoOrder` yields a duplicate-free permutation of
the nodes that respects every edge, whose initially-ready nodes form its
front segment. -/
theorem topoOrder_some_spec (nodes : List Node) (edges : List Edge)
    (hwf : WFGraph nodes edges) {o : List Node}
    (h : topoOrder nodes edges = some o) :
    o.Perm nodes ∧ o.Nodup ∧ (∀ e ∈ edges, before o e.1 e.2) ∧
      (∃ ext, o = nodes.filter (fun n => countIn edges n = 0) ++ ext ∧
        ∀ y ∈ ext, countIn edges y ≠ 0) := by
  obtain ⟨ext, indegF, heq, hext, hfin⟩ :=
    kahnLoop_spec nodes edges hwf (nodes.length + edges.length + 1)
      (countIn edges) (nodes.filter (fun n => countIn edges n = 0)) []
      (kahnInv_init nodes edges hwf) (by omega)
  simp only [topoOrder] at h
  split at h
  case isFalse => exact absurd h (by simp)
  case isTrue hlen =>
    have ho : kahnLoop edges (nodes.length + edges.length + 1)
        (countIn edges) (nodes.filter (fun n => countIn edges n = 0)) []
          = o := Option.some.inj h
    rw [ho] at heq hfin hlen
    have hnodup : o.Nodup := by simpa using hfin.nodup
    have hsub : o ⊆ nodes := by
      intro x hx
      exact ((hfin.mem_iff x).mp (by simpa using hx)).1
    have hperm : o.Perm nodes :=
      (hnodup.subperm hsub).perm_of_length_le (by omega)
    refine ⟨hperm, hnodup, ?_, ext, by simpa using heq, hext⟩
    intro e he
    have he2 : e.2 ∈ o := hperm.mem_iff.mpr (hwf.2.2 e he).2
    exact hfin.order_edges e he he2

/-- A successful run of `topoOrder` certifies the graph acyclic. -/
theorem topoOrder_some_acyclic (nodes : List Node) (edges : List Edge)
    (hwf : WFGraph nodes edges) {o : List Node}
    (h : topoOrder nodes edges = some o) : ¬ hasCycle edges := by
  obtain ⟨hperm, hnodup, hbefore, -⟩ := topoOrder_some_spec nodes edges hwf h
  rintro ⟨w, htg⟩
  have hb : ∀ a b, Relation.TransGen (edgeRel edges) a b → before o a b := by
    intro a b htg2
    induction htg2 with
    | single h1 => exact hbefore (a, _) h1
    | tail _ h1 ih => exact before_trans hnodup ih (hbefore (_, _) h1)
  exact before_irrefl hnodup w (hb w w htg)

/-- When `topoOrder` throws `Cyclic dependency`, the graph really contains a
cycle. -/
theorem topoOrder_none_cycle (nodes : List Node) (edges : List Edge)
    (hwf : WFGraph nodes edges) (h : topoOrder nodes edges = none) :
    hasCycle edges := by
  obtain ⟨ext, indegF, heq, hext, hfin⟩ :=
    kahnLoop_spec nodes edges hwf (nodes.length + edges.length + 1)
      (countIn edges) (nodes.filter (fun n => countIn edges n = 0)) []
      (kahnInv_init nodes edges hwf) (by omega)
  simp only [topoOrder] at h
  split at h
  case isTrue => exact absurd h (by simp)
  case isFalse hlen =>
    set r := kahnLoop edges (nodes.length + edges.length + 1)
      (countIn edges) (nodes.filter (fun n => countIn edges n = 0)) []
      with hr
    have hnodup : r.Nodup := by simpa using hfin.nodup
    have hsub : r ⊆ nodes := by
      intro x hx
      exact ((hfin.mem_iff x).mp (by simpa using hx)).1
    have hrlen : r.length ≤ nodes.length := (hnodup.subperm hsub).length_le
    refine cycle_of_all_pred edges (nodes.filter (fun n => ¬ n ∈ r)) ?_ ?_
    · intro hnil
      have hall : ∀ n ∈ nodes, n ∈ r := by
        intro n hn
        by_contra hnr
        have : n ∈ nodes.filter (fun n => ¬ n ∈ r) :=
          List.mem_filter.mpr ⟨hn, by simpa using hnr⟩
        rw [hnil] at this
        exact absurd this (List.not_mem_nil n)
      have : nodes.length ≤ r.length := (hwf.1.subperm hall).length_le
      exact hlen (by omega)
    · intro y hy
      rw [List.mem_filter] at hy
      have hyn : y ∈ nodes := hy.1
      have hynr : ¬ y ∈ r := by simpa using hy.2
      have hne0 : indegF y ≠ 0 := by
        intro h0
        exact hynr (by simpa using (hfin.mem_iff y).mpr ⟨hyn, h0⟩)
      rw [hfin.indeg_eq y] at hne0
      have hneq : intoFrom edges r y ≠ countIn edges y := by omega
      have hnall : ¬ ∀ e ∈ edges, e.2 = y → e.1 ∈ r := by
        intro hall
        exact hneq ((intoFrom_eq_countIn_iff edges r y).mpr hall)
      push_neg at hnall
      rcases hnall with ⟨e, he, hey, her⟩
      refine ⟨e.1, List.mem_filter.mpr
        ⟨(hwf.2.2 e he).1, by simpa using her⟩, ?_⟩
      have : (e.1, y) = e := by
        rw [← hey]
      rw [this]
      exact he

/-- Re-running `topoOrder` on its own successful output returns the same
order: the output starts with exactly the initially-ready nodes in the same
queue order, so the second run replays the first. -/
theorem topoOrder_idem (nodes : List Node) (edges : List Edge)
    (hwf : WFGraph nodes edges) {o : List Node}
    (h : topoOrder nodes edges = some o) :
    topoOrder o edges = some o := by
  obtain ⟨hperm, hnodup, hbefore, ⟨ext, hdec, hext⟩⟩ :=
    topoOrder_some_spec nodes edges hwf h
  have hq0 : o.filter (fun n => countIn edges n = 0) =
      nodes.filter (fun n => countIn edges n = 0) := by
    rw [hdec, List.filter_append]
    have h1 : (nodes.filter (fun n => countIn edges n = 0)).filter
        (fun n => countIn edges n = 0) =
          nodes.filter (fun n => countIn edges n = 0) := by
      rw [List.filter_eq_self]
      intro a ha
      exact (List.mem_filter.mp ha).2
    have h2 : ext.filter (fun n => countIn edges n = 0) = [] := by
      rw [List.filter_eq_nil_iff]
      intro a ha
      simpa using hext a ha
    rw [h1, h2, List.append_nil]
  have hlen : o.length = nodes.length := hperm.length_eq
  simp only [topoOrder] at h ⊢
  rw [hq0, hlen]
  exact h

/-- C5 counterexample: the input `["a", "b", "c"]` with the single edge
`a → b` is already topologically sorted, yet `topoOrder` returns the
different (still valid) order `["a", "c", "b"]` — the claimed idempotence on
already-sorted input fails. -/
theorem C5_counterexample :
    topoSorted ["a", "b", "c"] [("a", "b")] ∧
    topoOrder ["a", "b", "c"] [("a", "b")] = some ["a", "c", "b"] ∧
    (["a", "c", "b"] : List String) ≠ ["a", "b", "c"] := by
  refine ⟨?_, by rfl, by decide⟩
  intro e he
  have heq : e = ("a", "b") := List.mem_singleton.mp he
  subst heq
  exact ⟨0, 1, by omega, rfl, rfl⟩

/-- C5 amended: over a well-formed dependency graph (distinct todo ids,
set-like dependency edges between them), `topoOrder` raises
`CyclicDependencyError` if and only if the graph contains a cycle; a
successful run returns a Kahn-produced ordering of all the nodes (a
permutation respecting every edge); and `topoOrder` is idempotent on its own
output — re-running it on a successful result returns that result unchanged
(though not every externally topologically-sorted input is a fixed point). -/
theorem C5_topological_order_amended (nodes : List Node) (edges : List Edge)
    (hwf : WFGraph nodes edges) :
    (topoOrder nodes edges = none ↔ hasCycle edges) ∧
    (∀ o, topoOrder nodes edges = some o →
      o.Perm nodes ∧ (∀ e ∈ edges, before o e.1 e.2) ∧
        topoOrder o edges = some o) := by
  constructor
  · constructor
    · exact topoOrder_none_cycle nodes edges hwf
    · intro hcyc
      rcases hor : topoOrder nodes edges with _ | o
      · rfl
      · exact absurd hcyc (topoOrder_some_acyclic nodes edges hwf hor)
  · intro o ho
    obtain ⟨hperm, _, hbefore, -⟩ := topoOrder_some_spec nodes edges hwf ho
    exact ⟨hperm, hbefore, topoOrder_idem nodes edges hwf ho⟩

/-- Witness for C5 amended at concrete graphs: the two-node cycle makes
`topoOrder` throw, and on the acyclic three-node graph the produced order is
a fixed point of `topoOrder`. -/
theorem C5_topological_order_amended_witness :
    WFGraph ["a", "b"] [("a", "b"), ("b", "a")] ∧
    topoOrder ["a", "b"] [("a", "b"), ("b", "a")] = none ∧
    WFGraph ["a", "b", "c"] [("a", "b")] ∧
    topoOrder ["a", "c", "b"] [("a", "b")] = some ["a", "c", "b"] := by
  have hwf1 : WFGraph ["a", "b"] [("a", "b"), ("b", "a")] := by
    refine ⟨by decide, by decide, by decide⟩
  have hwf2 : WFGraph ["a", "b", "c"] [("a", "b")] := by
    refine ⟨by decide, by decide, by decide⟩
  have hedge1 : edgeRel [("a", "b"), ("b", "a")] "a" "b" := by
    show ("a", "b") ∈ [("a", "b"), ("b", "a")]
    decide
  have hedge2 : edgeRel [("a", "b"), ("b", "a")] "b" "a" := by
    show ("b", "a") ∈ [("a", "b"), ("b", "a")]
    decide
  have hcyc : hasCycle [("a", "b"), ("b", "a")] :=
    ⟨"a", Relation.TransGen.head hedge1 (Relation.TransGen.single hedge2)⟩
  refine ⟨hwf1,
    (C5_topological_order_amended ["a", "b"]
      [("a", "b"), ("b", "a")] hwf1).1.mpr hcyc,
    hwf2,
    ((C5_topological_order_amended ["a", "b", "c"]
      [("a", "b")] hwf2).2 ["a", "c", "b"] (by rfl)).2.2⟩

/-! ## Batch cancellation and error handling theorems (C1) -/

/-- C1 counterexample: in the spec's mid-batch scenario (`step-1` completed,
`step-2` executing, `step-3` pending), a user cancellation clears the queue
and reports partial progress but leaves `step-2` at `in_progress` — the claim
says the active todo is marked `cancelled` on user cancellation as well, which
the code does not do. -/
theorem C1_counterexample :
    (handleUserCancelledEventBatch false (some midBatchQueue)
      midBatchTodos).queue = none ∧
    statusOf (handleUserCancelledEventBatch false (some midBatchQueue)
      midBatchTodos).todos "step-2" = some TodoStatus.in_progress ∧
    TodoStatus.in_progress ≠ TodoStatus.cancelled := by
  decide

/-- C1 amended: on an error event mid-batch the active todo is marked
`cancelled`, every other todo is left unchanged, the queue is cleared and
partial progress is reported; on a user cancellation the queue is likewise
cleared and partial progress reported, but the todo list — including the
active todo — is left entirely unchanged. Neither handler auto-resumes (no
todo is dispatched). -/
theorem C1_cancellation_amended (queue : ExecutionQueue) (todos : List Todo)
    (tid : String) (hact : queue.active = true)
    (hexec : queue.executingTodoId = some tid) :
    ((handleErrorEventBatch (some queue) todos).queue = none ∧
      (handleErrorEventBatch (some queue) todos).todos =
        updateTodoStatus todos tid TodoStatus.cancelled ∧
      (handleErrorEventBatch (some queue) todos).reportedProgress =
        some (queue.currentIndex - 1, queue.totalCount) ∧
      (handleErrorEventBatch (some queue) todos).dispatched = none ∧
      (∀ t ∈ todos, t.id ≠ tid →
        t ∈ (handleErrorEventBatch (some queue) todos).todos) ∧
      (∀ t ∈ todos, t.id = tid →
        { t with status := TodoStatus.cancelled } ∈
          (handleErrorEventBatch (some queue) todos).todos)) ∧
    ((handleUserCancelledEventBatch false (some queue) todos).queue = none ∧
      (handleUserCancelledEventBatch false (some queue) todos).todos = todos ∧
      (handleUserCancelledEventBatch false (some queue) todos).reportedProgress
        = some (queue.currentIndex - 1, queue.totalCount) ∧
      (handleUserCancelledEventBatch false (some queue) todos).dispatched =
        none) := by
  have herr : handleErrorEventBatch (some queue) todos =
      { queue := none,
        todos := updateTodoStatus todos tid TodoStatus.cancelled,
        reportedProgress := some (queue.currentIndex - 1, queue.totalCount),
        dispatched := none } := by
    simp [handleErrorEventBatch, hact, hexec]
  have hcan : handleUserCancelledEventBatch false (some queue) todos =
      { queue := none, todos := todos,
        reportedProgress := some (queue.currentIndex - 1, queue.totalCount),
        dispatched := none } := by
    simp [handleUserCancelledEventBatch, hact]
  rw [herr, hcan]
  refine ⟨⟨rfl, rfl, rfl, rfl, ?_, ?_⟩, rfl, rfl, rfl, rfl⟩
  · intro t ht hne
    have : (if t.id = tid then { t with status := TodoStatus.cancelled }
        else t) = t := by simp [hne]
    simpa [updateTodoStatus, this] using
      List.mem_map_of_mem
        (fun t => if t.id = tid then { t with status := TodoStatus.cancelled }
          else t) ht
  · intro t ht heq
    have : (if t.id = tid then { t with status := TodoStatus.cancelled }
        else t) = { t with status := TodoStatus.cancelled } := by simp [heq]
    simpa [updateTodoStatus, this] using
      List.mem_map_of_mem
        (fun t => if t.id = tid then { t with status := TodoStatus.cancelled }
          else t) ht

/-- Witness for C1 amended at the spec's mid-batch scenario. -/
theorem C1_cancellation_amended_witness :
    midBatchQueue.active = true ∧
    midBatchQueue.executingTodoId = some "step-2" ∧
    ((handleErrorEventBatch (some midBatchQueue) midBatchTodos).queue = none ∧
      (handleErrorEventBatch (some midBatchQueue) midBatchTodos).todos =
        updateTodoStatus midBatchTodos "step-2" TodoStatus.cancelled ∧
      (handleErrorEventBatch (some midBatchQueue)
          midBatchTodos).reportedProgress =
        some (midBatchQueue.currentIndex - 1, midBatchQueue.totalCount) ∧
      (handleErrorEventBatch (some midBatchQueue) midBatchTodos).dispatched =
        none ∧
      (∀ t ∈ midBatchTodos, t.id ≠ "step-2" →
        t ∈ (handleErrorEventBatch (some midBatchQueue) midBatchTodos).todos) ∧
      (∀ t ∈ midBatchTodos, t.id = "step-2" →
        { t with status := TodoStatus.cancelled } ∈
          (handleErrorEventBatch (some midBatchQueue) midBatchTodos).todos)) ∧
    ((handleUserCancelledEventBatch false (some midBatchQueue)
        midBatchTodos).queue = none ∧
      (handleUserCancelledEventBatch false (some midBatchQueue)
        midBatchTodos).todos = midBatchTodos ∧
      (handleUserCancelledEventBatch false (some midBatchQueue)
          midBatchTodos).reportedProgress =
        some (midBatchQueue.currentIndex - 1, midBatchQueue.totalCount) ∧
      (handleUserCancelledEventBatch false (some midBatchQueue)
        midBatchTodos).dispatched = none) :=
  ⟨rfl, rfl,
    C1_cancellation_amended midBatchQueue midBatchTodos "step-2" rfl rfl⟩

/-! ## Batch continuation theorem (C2) -/

/-- C2: when a turn completes with an active batch queue, the executing todo
is marked `completed`; if a todo is dispatched next, the queue's
`currentIndex` is incremented and now points at it, it is marked
`in_progress`, and it was ready — status `pending` with every dependency
`completed` (in the todo list as updated by the completion); the queue is
cleared exactly when no ready todo remains after the completion update. -/
theorem C2_batch_continuation (queue : ExecutionQueue) (todos : List Todo)
    (tid : String) (hnd : (todos.map Todo.id).Nodup)
    (hact : queue.active = true) (hexec : queue.executingTodoId = some tid)
    (hmem : ∃ t ∈ todos, t.id = tid) :
    statusOf (handleNextTodo (some queue) todos).todos tid =
      some TodoStatus.completed ∧
    (∀ nid, (handleNextTodo (some queue) todos).dispatched = some nid →
      nid ≠ tid ∧
      (∃ q, (handleNextTodo (some queue) todos).queue = some q ∧
        q.currentIndex = queue.currentIndex + 1 ∧
        q.executingTodoId = some nid) ∧
      statusOf (handleNextTodo (some queue) todos).todos nid =
        some TodoStatus.in_progress ∧
      (∃ t ∈ updateTodoStatus todos tid TodoStatus.completed, t.id = nid ∧
        t.status = TodoStatus.pending ∧
        ∀ d ∈ t.dependencies,
          statusOf (updateTodoStatus todos tid TodoStatus.completed) d =
            some TodoStatus.completed)) ∧
    ((handleNextTodo (some queue) todos).queue = none ↔
      ∀ t ∈ updateTodoStatus todos tid TodoStatus.completed,
        todoReady (updateTodoStatus todos tid TodoStatus.completed) t =
          false) := by
  have hnd1 : ((updateTodoStatus todos tid TodoStatus.completed).map
      Todo.id).Nodup := by
    rw [map_id_updateTodoStatus]; exact hnd
  have hstat1 : statusOf (updateTodoStatus todos tid TodoStatus.completed)
      tid = some TodoStatus.completed := statusOf_update_self todos tid _ hmem
  rcases hnext : getNextExecutableTodo
      (updateTodoStatus todos tid TodoStatus.completed) with _ | nt
  · have hr : handleNextTodo (some queue) todos =
        { queue := none,
          todos := updateTodoStatus todos tid TodoStatus.completed,
          reportedProgress := some (queue.currentIndex, queue.totalCount),
          dispatched := none } := by
      simp [handleNextTodo, hact, hexec, hnext]
    rw [hr]
    refine ⟨hstat1, ?_, ?_⟩
    · intro nid hnid
      exact absurd hnid (by simp)
    · simp only [true_iff]
      exact getNextExecutableTodo_none hnext
  · rcases getNextExecutableTodo_mem hnext with ⟨hntmem, hntready⟩
    rcases (todoReady_iff _ _).mp hntready with ⟨hntpend, hntdeps⟩
    have hne : nt.id ≠ tid := by
      intro hh
      have := statusOf_mem_nodup _ hnd1 hntmem
      rw [hh, hstat1] at this
      have : TodoStatus.completed = nt.status := by
        exact Option.some.inj this
      rw [← this] at hntpend
      exact absurd hntpend (by simp)
    have hr : handleNextTodo (some queue) todos =
        { queue := some { queue with
            currentIndex := queue.currentIndex + 1,
            executingTodoId := some nt.id },
          todos := updateTodoStatus
            (updateTodoStatus todos tid TodoStatus.completed) nt.id
            TodoStatus.in_progress,
          reportedProgress := none,
          dispatched := some nt.id } := by
      simp [handleNextTodo, hact, hexec, hnext]
    rw [hr]
    refine ⟨?_, ?_, ?_⟩
    · have := statusOf_update_other
        (updateTodoStatus todos tid TodoStatus.completed) nt.id tid
        TodoStatus.in_progress (fun hh => hne hh.symm)
      rw [this]
      exact hstat1
    · intro nid hnid
      have hnid' : nid = nt.id := (Option.some.inj hnid).symm
      subst hnid'
      refine ⟨hne, ⟨_, rfl, rfl, rfl⟩, ?_, nt, hntmem, rfl, hntpend, hntdeps⟩
      exact statusOf_update_self _ nt.id _ ⟨nt, hntmem, rfl⟩
    · constructor
      · intro hq
        exact absurd hq (by simp)
      · intro hall
        have := hall nt hntmem
        rw [hntready] at this
        exact absurd this (by simp)

/-- Witness for C2 at a fresh three-todo batch: completing `step-1` dispatches
`step-2` (the first ready dependent) and advances the queue. -/
theorem C2_batch_continuation_witness :
    ((startBatchTodos.map Todo.id).Nodup ∧
      startBatchQueue.active = true ∧
      startBatchQueue.executingTodoId = some "step-1" ∧
      (∃ t ∈ startBatchTodos, t.id = "step-1")) ∧
    statusOf (handleNextTodo (some startBatchQueue) startBatchTodos).todos
      "step-1" = some TodoStatus.completed ∧
    (handleNextTodo (some startBatchQueue) startBatchTodos).dispatched =
      some "step-2" ∧
    statusOf (handleNextTodo (some startBatchQueue) startBatchTodos).todos
      "step-2" = some TodoStatus.in_progress := by
  have h := C2_batch_continuation startBatchQueue startBatchTodos "step-1"
    (by decide) rfl rfl ⟨startBatchTodos.head (by decide), by decide⟩
  have hdisp : (handleNextTodo (some startBatchQueue)
      startBatchTodos).dispatched = some "step-2" := by decide
  exact ⟨⟨by decide, rfl, rfl, startBatchTodos.head (by decide), by decide⟩,
    h.1, hdisp, ((h.2.1 "step-2" hdisp).2.2).1⟩

/-! ## Handoff Manager theorems (C6, C7) -/

/-- Unfolded description of `requestHandoff`: the three checks run in order. -/
theorem requestHandoff_eq (chain : List String) (depth : Nat) (tgt : String)
    (ex : Bool) :
    requestHandoff chain depth tgt ex =
      if tgt ∈ chain then .Rejected .CircularHandoff
      else if depth + 1 > MAX_HANDOFF_DEPTH then .Rejected .DepthExceeded
      else if ex = false then .Rejected .UnknownAgent
      else .Accepted (chain ++ [tgt]) (depth + 1) := by
  simp only [requestHandoff, detectCircularHandoff, validateHandoffDepth,
    List.contains, List.elem_eq_mem, decide_eq_true_eq, Nat.lt_iff_add_one_le,
    gt_iff_lt, Nat.not_le]
  by_cases hmem : tgt ∈ chain
  · simp [hmem]
  · by_cases hdep : MAX_HANDOFF_DEPTH < depth + 1
    · simp [hmem, hdep, Nat.not_le.mpr hdep]
    · have hle : depth + 1 ≤ MAX_HANDOFF_DEPTH := Nat.not_lt.mp hdep
      cases ex <;> simp [hmem, hdep, hle]

theorem requestHandoff_circular (chain : List String) (depth : Nat)
    (tgt : String) (ex : Bool) (h : tgt ∈ chain) :
    requestHandoff chain depth tgt ex = .Rejected .CircularHandoff := by
  rw [requestHandoff_eq]
  simp [h]

theorem requestHandoff_accepted_chain {chain : List String} {depth : Nat}
    {tgt : String} {ex : Bool} {c : List String} {d : Nat}
    (h : requestHandoff chain depth tgt ex = .Accepted c d) :
    c = chain ++ [tgt] ∧ d = depth + 1 ∧ tgt ∉ chain ∧
      depth + 1 ≤ MAX_HANDOFF_DEPTH := by
  rw [requestHandoff_eq] at h
  by_cases hmem : tgt ∈ chain
  · rw [if_pos hmem] at h
    exact absurd h (by simp)
  · rw [if_neg hmem] at h
    by_cases hdep : depth + 1 > MAX_HANDOFF_DEPTH
    · rw [if_pos hdep] at h
      exact absurd h (by simp)
    · rw [if_neg hdep] at h
      cases ex with
      | false => exact absurd h (by simp)
      | true =>
        rw [if_neg (by simp)] at h
        cases h
        exact ⟨rfl, rfl, hmem, Nat.not_lt.mp hdep⟩

theorem runHandoffs_nodup (reqs : List (String × Bool))
    (init : List String) (d0 : Nat) (hnd : init.Nodup) :
    ((runHandoffs (init, d0) reqs).1).Nodup := by
  induction reqs generalizing init d0 with
  | nil => exact hnd
  | cons r rs ih =>
    show ((runHandoffs _ rs).1).Nodup
    rcases hres : requestHandoff init d0 r.1 r.2 with c | reason
    · rcases requestHandoff_accepted_chain hres with ⟨hc, _, hmem, _⟩
      subst hc
      have : (init ++ [r.1]).Nodup := by
        simp [List.nodup_append, hnd, hmem]
      simpa [runHandoffs, hres] using ih (init ++ [r.1]) _ this
    · simpa [runHandoffs, hres] using ih init d0 hnd

/-- C6: a handoff chain built solely by sequential accepted handoffs never
contains a duplicate entry: `requestHandoff` rejects with `CircularHandoff`
whenever the target already appears in the chain, an accepted transfer appends
the target to the chain (with the target previously absent), and therefore the
no-duplicates invariant is preserved by every accepted transfer starting from
a duplicate-free chain. -/
theorem C6_handoff_chain_no_duplicates :
    (∀ (chain : List String) (depth : Nat) (tgt : String) (ex : Bool),
      tgt ∈ chain →
        requestHandoff chain depth tgt ex = .Rejected .CircularHandoff) ∧
    (∀ (chain : List String) (depth : Nat) (tgt : String) (ex : Bool)
        (c : List String) (d : Nat),
      requestHandoff chain depth tgt ex = .Accepted c d →
        c = chain ++ [tgt] ∧ tgt ∉ chain) ∧
    (∀ (init : List String) (reqs : List (String × Bool)),
      init.Nodup → ((runHandoffs (init, 0) reqs).1).Nodup) := by
  refine ⟨requestHandoff_circular, ?_, ?_⟩
  · intro chain depth tgt ex c d h
    exact ⟨(requestHandoff_accepted_chain h).1,
      (requestHandoff_accepted_chain h).2.2.1⟩
  · intro init reqs hnd
    exact runHandoffs_nodup reqs init 0 hnd

/-- Witness for C6 at a concrete chain: a self-transfer is rejected as
circular, and a concretely built two-transfer chain is duplicate-free. -/
theorem C6_handoff_chain_no_duplicates_witness :
    requestHandoff ["A", "B"] 1 "A" true = .Rejected .CircularHandoff ∧
    ((runHandoffs (["A"], 0) [("B", true), ("C", true)]).1).Nodup :=
  ⟨C6_handoff_chain_no_duplicates.1 ["A", "B"] 1 "A" true (by decide),
   C6_handoff_chain_no_duplicates.2.2 ["A"] [("B", true), ("C", true)]
     (by decide)⟩

/-- C7 counterexample: a request whose target already appears in the chain is
rejected as `CircularHandoff` even though `depth + 1 > 5`, so "rejects with
reason `DepthExceeded` if and only if `depth + 1 > 5`" fails in the `if`
direction at this input. -/
theorem C7_counterexample :
    7 + 1 > MAX_HANDOFF_DEPTH ∧
    requestHandoff ["A", "B"] 7 "A" true ≠ .Rejected .DepthExceeded := by
  decide

theorem runHandoffs_length_invariant (reqs : List (String × Bool))
    (st : List String × Nat) (hlen : st.1.length = st.2 + 1)
    (hd : st.2 ≤ MAX_HANDOFF_DEPTH) :
    (runHandoffs st reqs).1.length = (runHandoffs st reqs).2 + 1 ∧
      (runHandoffs st reqs).2 ≤ MAX_HANDOFF_DEPTH := by
  induction reqs generalizing st with
  | nil => exact ⟨hlen, hd⟩
  | cons r rs ih =>
    show (runHandoffs _ rs).1.length = _ ∧ _
    rcases hres : requestHandoff st.1 st.2 r.1 r.2 with c | reason
    · rcases requestHandoff_accepted_chain hres with ⟨hc, hdep, _, hdepth_ok⟩
      subst hc hdep
      have := ih ((st.1 ++ [r.1]), st.2 + 1) (by simp [hlen]) hdepth_ok
      simpa [runHandoffs, hres] using this
    · simpa [runHandoffs, hres] using ih st hlen hd

/-- C7 amended: provided the cycle check passes (the target is not already in
the chain), `requestHandoff` rejects with `DepthExceeded` exactly when
`depth + 1 > 5`; and a chain built by sequential handoffs from a single
initial agent has length at most 6 (initial agent plus 5 transfers). -/
theorem C7_depth_check_amended (chain : List String) (depth : Nat)
    (tgt : String) (ex : Bool) (hnc : tgt ∉ chain) :
    (requestHandoff chain depth tgt ex = .Rejected .DepthExceeded ↔
      depth + 1 > MAX_HANDOFF_DEPTH) ∧
    (∀ (a0 : String) (reqs : List (String × Bool)),
      (runHandoffs ([a0], 0) reqs).1.length ≤ 6) := by
  constructor
  · rw [requestHandoff_eq, if_neg hnc]
    constructor
    · intro h
      by_contra hle
      rw [if_neg hle] at h
      cases ex with
      | false => rw [if_pos rfl] at h; exact absurd h (by simp)
      | true => rw [if_neg (by simp)] at h; exact absurd h (by simp)
    · intro hgt
      rw [if_pos hgt]
  · intro a0 reqs
    have := runHandoffs_length_invariant reqs (⟨[a0], 0⟩ : List String × Nat)
      (by simp) (by simp [MAX_HANDOFF_DEPTH])
    have h2 := this.2
    rw [this.1]
    simp only [MAX_HANDOFF_DEPTH] at h2
    omega

/-- Witness for C7 amended at a concrete request: depth 7 with a fresh target
is rejected as `DepthExceeded`, and a concrete five-transfer run ends with a
six-entry chain. -/
theorem C7_depth_check_amended_witness :
    ("B" ∉ (["A"] : List String)) ∧
    requestHandoff ["A"] 7 "B" true = .Rejected .DepthExceeded ∧
    (runHandoffs (["A"], 0)
      [("B", true), ("C", true), ("D", true), ("E", true), ("F", true),
       ("G", true)]).1.length ≤ 6 := by
  have h := C7_depth_check_amended ["A"] 7 "B" true (by decide)
  exact ⟨by decide, h.1.mpr (by decide), h.2 "A" _⟩

/-! ## Approval-mode change theorems (C4) -/

/-- C4 counterexample: enabling the auto-approval mode AUTO_EDIT leaves a
non-edit tool call (`run_shell_command`) in `awaiting_approval` — the claim
says the approval-mode change releases every awaiting call regardless of
which tool it names, but AUTO_EDIT only releases the edit tools. -/
theorem C4_counterexample :
    shellApprovalCall.status = TCStatus.awaiting_approval ∧
    shellApprovalCall.name ∉ EDIT_TOOL_NAMES ∧
    handleApprovalModeChange ApprovalModeT.auto_edit [shellApprovalCall] =
      [shellApprovalCall] ∧
    shellApprovalCall.status ≠ TCStatus.executing := by
  decide

/-- C4 amended: enabling YOLO releases every `awaiting_approval` call to
`executing` without further user input; enabling AUTO_EDIT releases exactly
the awaiting calls that name an edit tool (`replace`, `write_file`), leaving
other awaiting calls untouched; a change to the default mode releases
nothing. -/
theorem C4_auto_approval_amended (mode : ApprovalModeT)
    (calls : List TrackedToolCall) (c : TrackedToolCall) (hc : c ∈ calls)
    (hw : c.status = TCStatus.awaiting_approval) :
    (mode = ApprovalModeT.yolo →
      { c with status := TCStatus.executing } ∈
        handleApprovalModeChange mode calls) ∧
    (mode = ApprovalModeT.auto_edit → c.name ∈ EDIT_TOOL_NAMES →
      { c with status := TCStatus.executing } ∈
        handleApprovalModeChange mode calls) ∧
    (mode = ApprovalModeT.auto_edit → c.name ∉ EDIT_TOOL_NAMES →
      c ∈ handleApprovalModeChange mode calls) ∧
    (mode = ApprovalModeT.default →
      handleApprovalModeChange mode calls = calls) := by
  refine ⟨?_, ?_, ?_, ?_⟩
  · rintro rfl
    have : (fun c : TrackedToolCall =>
        if c.status = TCStatus.awaiting_approval ∧
            (ApprovalModeT.yolo = ApprovalModeT.yolo ∨
              c.name ∈ EDIT_TOOL_NAMES) then
          { c with status := TCStatus.executing }
        else c) c = { c with status := TCStatus.executing } := by
      simp [hw]
    rw [handleApprovalModeChange, if_pos (Or.inl rfl), ← this]
    exact List.mem_map_of_mem _ hc
  · rintro rfl hedit
    have : (fun c : TrackedToolCall =>
        if c.status = TCStatus.awaiting_approval ∧
            (ApprovalModeT.auto_edit = ApprovalModeT.yolo ∨
              c.name ∈ EDIT_TOOL_NAMES) then
          { c with status := TCStatus.executing }
        else c) c = { c with status := TCStatus.executing } := by
      simp [hw, hedit]
    rw [handleApprovalModeChange, if_pos (Or.inr rfl), ← this]
    exact List.mem_map_of_mem _ hc
  · rintro rfl hedit
    have : (fun c : TrackedToolCall =>
        if c.status = TCStatus.awaiting_approval ∧
            (ApprovalModeT.auto_edit = ApprovalModeT.yolo ∨
              c.name ∈ EDIT_TOOL_NAMES) then
          { c with status := TCStatus.executing }
        else c) c = c := by
      simp [hw, hedit]
    rw [handleApprovalModeChange, if_pos (Or.inr rfl), ← this]
    exact List.mem_map_of_mem _ hc
  · rintro rfl
    rw [handleApprovalModeChange, if_neg (by simp)]

/-- Witness for C4 amended: YOLO releases the shell call, AUTO_EDIT releases
the edit call. -/
theorem C4_auto_approval_amended_witness :
    shellApprovalCall.status = TCStatus.awaiting_approval ∧
    ({ shellApprovalCall with status := TCStatus.executing } ∈
      handleApprovalModeChange ApprovalModeT.yolo
        [shellApprovalCall, editApprovalCall]) ∧
    ({ editApprovalCall with status := TCStatus.executing } ∈
      handleApprovalModeChange ApprovalModeT.auto_edit
        [shellApprovalCall, editApprovalCall]) :=
  ⟨rfl,
    (C4_auto_approval_amended ApprovalModeT.yolo
      [shellApprovalCall, editApprovalCall] shellApprovalCall
      (by decide) rfl).1 rfl,
    (C4_auto_approval_amended ApprovalModeT.auto_edit
      [shellApprovalCall, editApprovalCall] editApprovalCall
      (by decide) rfl).2.1 rfl (by decide)⟩

/-! ## Tool response submission theorems (C3, C10) -/

/-- C3 counterexample: a completed batch consisting of one cancelled
model-initiated call (terminal, response parts ready) produces zero
aggregated submissions, not exactly one — the cancelled batch is recorded in
the chat history instead. -/
theorem C3_counterexample :
    cancelledReadCall.status.isTerminal = true ∧
    cancelledReadCall.hasResponseParts = true ∧
    cancelledReadCall.isClientInitiated = false ∧
    (handleCompletedTools false false [cancelledReadCall]).submissions.length
      = 0 ∧ (0 : Nat) ≠ 1 := by
  decide

/-- C3 amended: per completed batch at most one aggregated response
submission is made; exactly one is made when the batch's completed
model-initiated calls are non-empty, not all cancelled, and no quota-error
model switch occurred; and every call already flagged `responseSubmitted` is
excluded from all future response batches. -/
theorem C3_submission_amended :
    (∀ (ir msw : Bool) (batch : List TrackedToolCall),
      (handleCompletedTools ir msw batch).submissions.length ≤ 1) ∧
    (∀ (batch : List TrackedToolCall),
      ((batch.filter (fun tc => tc.status.isTerminal && tc.hasResponseParts)
          ).filter (fun t => !t.isClientInitiated)) ≠ [] →
      (((batch.filter (fun tc =>
          tc.status.isTerminal && tc.hasResponseParts)).filter
            (fun t => !t.isClientInitiated)).all
          (fun tc => tc.status = TCStatus.cancelled)) = false →
      (handleCompletedTools false false batch).submissions.length = 1) ∧
    (∀ (submitted : List String) (tracked : List TrackedToolCall)
        (tc : TrackedToolCall), tc ∈ tracked → tc.callId ∈ submitted →
      tc ∉ nextResponseBatch submitted tracked) := by
  refine ⟨?_, ?_, ?_⟩
  · intro ir msw batch
    simp only [handleCompletedTools]
    split
    · simp
    · split
      · simp
      · split
        · simp
        · cases msw <;> simp
  · intro batch hne hnc
    simp only [handleCompletedTools]
    rw [if_neg (by simp)]
    rw [if_neg (fun h => hne (List.isEmpty_iff.mp h))]
    rw [if_neg (fun h => by rw [hnc] at h; exact absurd h (by simp))]
    simp
  · intro submitted tracked tc htr hsub hmem
    have := (List.mem_filter.mp hmem).2
    simp only [Bool.not_eq_true'] at this
    rw [List.contains, List.elem_eq_mem] at this
    simp only [decide_eq_false_iff_not] at this
    exact this hsub

/-- Witness for C3 amended: a batch with one successful and one cancelled
model-initiated call makes exactly one aggregated submission, and a call
whose id is already flagged submitted is excluded from the next batch. -/
theorem C3_submission_amended_witness :
    (handleCompletedTools false false
      [successReadCall, cancelledReadCall]).submissions.length = 1 ∧
    cancelledReadCall ∉
      nextResponseBatch ["call-read"] [cancelledReadCall, successReadCall] :=
  ⟨C3_submission_amended.2.1 [successReadCall, cancelledReadCall]
      (by decide) (by decide),
    C3_submission_amended.2.2 ["call-read"]
      [cancelledReadCall, successReadCall] cancelledReadCall
      (by decide) (by decide)⟩

/-- C10: when every model-initiated call of a completed batch is cancelled
(terminal, with response parts ready), no continuation request is submitted;
the combined function responses are appended directly to the chat history,
and all of those calls are still marked submitted, so they are never
resubmitted later. -/
theorem C10_all_cancelled_no_continuation (msw : Bool)
    (batch : List TrackedToolCall)
    (hparts : ∀ tc ∈ batch, tc.hasResponseParts = true)
    (hcan : ∀ tc ∈ batch, tc.isClientInitiated = false →
      tc.status = TCStatus.cancelled)
    (hne : ∃ tc ∈ batch, tc.isClientInitiated = false) :
    (handleCompletedTools false msw batch).submissions = [] ∧
    (handleCompletedTools false msw batch).historyAdds =
      [(batch.filter (fun t => !t.isClientInitiated)).flatMap
        (fun t => t.responseParts)] ∧
    (∀ tc ∈ batch.filter (fun t => !t.isClientInitiated),
      tc.callId ∈ (handleCompletedTools false msw batch).markedSubmitted) := by
  have hgem : (batch.filter (fun tc =>
      tc.status.isTerminal && tc.hasResponseParts)).filter
        (fun t => !t.isClientInitiated) =
      batch.filter (fun t => !t.isClientInitiated) := by
    rw [List.filter_filter]
    refine List.filter_congr ?_
    intro tc htc
    cases hcl : tc.isClientInitiated with
    | true => simp [hcl]
    | false =>
      have hst := hcan tc htc hcl
      have hpt := hparts tc htc
      simp [hcl, hst, hpt, TCStatus.isTerminal]
  have hnemp : ¬ ((batch.filter (fun tc =>
      tc.status.isTerminal && tc.hasResponseParts)).filter
        (fun t => !t.isClientInitiated)).isEmpty = true := by
    rw [hgem, List.isEmpty_iff]
    rcases hne with ⟨tc, htc, hcl⟩
    intro hemp
    have : tc ∈ batch.filter (fun t => !t.isClientInitiated) :=
      List.mem_filter.mpr ⟨htc, by simp [hcl]⟩
    rw [hemp] at this
    exact absurd this (by simp)
  have hallc : (((batch.filter (fun tc =>
      tc.status.isTerminal && tc.hasResponseParts)).filter
        (fun t => !t.isClientInitiated)).all
      (fun tc => tc.status = TCStatus.cancelled)) = true := by
    rw [hgem, List.all_eq_true]
    intro tc htc
    rcases List.mem_filter.mp htc with ⟨htcb, hcl⟩
    simp only [Bool.not_eq_true'] at hcl
    simpa using hcan tc htcb hcl
  rw [handleCompletedTools, if_neg (by simp), if_neg hnemp, if_pos hallc]
  refine ⟨rfl, by rw [hgem], ?_⟩
  intro tc htc
  rw [hgem]
  refine List.mem_append.mpr (Or.inr ?_)
  exact List.mem_map_of_mem _ htc

/-- Witness for C10 at a concrete batch: one cancelled model-initiated call
plus one client-initiated call — no submission, the cancelled call's response
goes to the history and its id is marked submitted. -/
theorem C10_all_cancelled_no_continuation_witness :
    (handleCompletedTools false false
      [cancelledReadCall, clientSuccessCall]).submissions = [] ∧
    (handleCompletedTools false false
      [cancelledReadCall, clientSuccessCall]).historyAdds =
      [(([cancelledReadCall, clientSuccessCall].filter
        (fun t => !t.isClientInitiated)).flatMap (fun t => t.responseParts))] ∧
    (∀ tc ∈ [cancelledReadCall, clientSuccessCall].filter
        (fun t => !t.isClientInitiated),
      tc.callId ∈ (handleCompletedTools false false
        [cancelledReadCall, clientSuccessCall]).markedSubmitted) :=
  C10_all_cancelled_no_continuation false
    [cancelledReadCall, clientSuccessCall]
    (by decide) (by decide) ⟨cancelledReadCall, by decide⟩

/-! ## Router rule-scoring theorem (C8) -/

/-- C8: the rule score equals (10 · matched keywords + 15 · matched patterns)
scaled by `1 + priority/200` (the code's `base * (1 + (priority/100) * 0.5)`
is exactly that), and the reported confidence is `min(100, round(score))`
with JavaScript rounding. -/
theorem C8_rule_score (regexTest : String → String → Bool) (input : String)
    (t : Triggers) :
    (ruleScore regexTest input t).score =
      (10 * ((t.keywords.filter
          (fun k => decide (k.toList <:+: input.toList))).length : ℚ) +
        15 * ((t.patterns.filter (fun p => regexTest p input)).length : ℚ)) *
        (1 + (t.priority.getD 50) / 200) ∧
    (ruleScore regexTest input t).confidence =
      min 100 (jsRound ((ruleScore regexTest input t).score)) := by
  constructor
  · show (((t.keywords.filter
        (fun k => decide (k.toList <:+: input.toList))).length : ℚ) * 10 +
          ((t.patterns.filter (fun p => regexTest p input)).length : ℚ) * 15) *
        (1 + ((t.priority.getD 50) / 100) * (1 / 2)) = _
    ring
  · rfl

/-! ## Workflow parallel-group theorems (C9) -/

theorem aggregate_get?_none (ids : List String) (outs : List (Option String))
    (i : Nat) (sid : String)
    (hid : ids.get? i = some sid) (ho : outs.get? i = some none) :
    (aggregate ids outs).get? i =
      some { stepId := sid, status := .error, output := "" } := by
  induction ids generalizing outs i with
  | nil => simp at hid
  | cons x xs ih =>
    cases outs with
    | nil => simp at ho
    | cons y ys =>
      cases i with
      | zero =>
        simp only [List.get?] at hid ho
        cases hid; cases ho
        simp [aggregate]
      | succ n =>
        simp only [List.get?] at hid ho
        simpa [aggregate, List.zip_cons_cons] using ih ys n hid ho

/-- C9: a parallel group fails (the thrown error aborts the workflow under
`onError = abort`, the default) exactly when the number of fulfilled members is
below `minSuccess` (which defaults to the group size) and the policy is not
`continue`; when it does not fail, the workflow proceeds with the aggregated
partial StepResults in which every failed sub-step carries `status = error`
and empty output. -/
theorem C9_parallel_min_success (g : ParallelStepGroup)
    (outcomes : List (Option String))
    (hlen : outcomes.length = g.parallel.length) :
    ((∃ msg, runParallel g outcomes = .error msg) ↔
      ((outcomes.filter (fun o => o.isSome)).length <
          ((g.error_handling.bind (fun e => e.min_success)).getD
            g.parallel.length) ∧
        (g.error_handling.bind (fun e => e.on_error)) ≠ some "continue")) ∧
    (∀ rs, runParallel g outcomes = .ok rs →
      rs.length = g.parallel.length ∧
      ∀ i sid, g.parallel.get? i = some sid → outcomes.get? i = some none →
        rs.get? i = some { stepId := sid, status := .error, output := "" }) := by
  constructor
  · constructor
    · rintro ⟨msg, hmsg⟩
      by_contra hcond
      simp only [runParallel, if_neg hcond] at hmsg
      exact absurd hmsg (by simp)
    · intro hcond
      exact ⟨"Parallel group failed", by simp only [runParallel, if_pos hcond]⟩
  · intro rs hrs
    have hagg : rs = aggregate g.parallel outcomes := by
      simp only [runParallel] at hrs
      split at hrs
      · exact absurd hrs (by simp)
      · simpa using hrs.symm
    subst hagg
    constructor
    · simp [aggregate, hlen]
    · intro i sid hsid ho
      exact aggregate_get?_none g.parallel outcomes i sid hsid ho

/-- Witness for C9 at the spec's concrete scenario: two members, one success;
with `minSuccess = 1` the group succeeds, the run shown here uses
`minSuccess = 2` under the default abort policy and fails, and the failed
member aggregates to `status = error` with empty output under `continue`. -/
theorem C9_parallel_min_success_witness :
    ([some "ok", none] : List (Option String)).length =
      (["review-a", "review-b"] : List String).length ∧
    ((∃ msg,
        runParallel
          { parallel := ["review-a", "review-b"],
            error_handling :=
              some { on_error := some "abort", min_success := some 2 } }
          [some "ok", none] = .error msg) ↔
      ((([some "ok", none] : List (Option String)).filter
          (fun o => o.isSome)).length < 2 ∧ True)) := by
  constructor
  · decide
  · have h := (C9_parallel_min_success
      { parallel := ["review-a", "review-b"],
        error_handling :=
          some { on_error := some "abort", min_success := some 2 } }
      [some "ok", none] (by decide)).1
    simpa using h

end FuxiCli
